import Mathlib

/-!
Verification development for the proboscis-linter repository.

This file shallowly embeds the Python modules `config.py`, `rust_linter.py`,
`linter.py`, `cli.py` and `auto_fix.py` of `src/proboscis_linter/` as Lean
definitions, and proves (or refutes) the frozen claims about them.

Conventions of the embedding:
- Python `str` is `String`, Python `int` is `Int`, Python `Optional[T]` is
  `Option T`.
- Python dictionaries are association lists (`List (String × _)`) whose key
  order models Python dict insertion order.
- Fallible Python code (exceptions) is embedded with `Option`/`Except`, with
  the state mutations that happened before the exception made explicit.
-/

namespace Proboscis

/-- Values that can appear in a parsed TOML document (the output of
`tomllib.load` consumed by `config.py`).  The `table` constructor carries an
association list because `tomllib` rejects duplicate keys. -/
inductive TomlValue where
  | bool (b : Bool)
  | str (s : String)
  | int (n : Int)
  | table (entries : List (String × TomlValue))
  | arr (items : List TomlValue)

/-- Configuration for individual rules (`RuleConfig` in `config.py`):
`enabled : bool = True` and an options dictionary. -/
structure RuleConfig where
  enabled : Bool := true
  options : List (String × TomlValue) := []

/-- Configuration model (`ProboscisConfig` in `config.py`).  The fields are
exactly the pydantic fields declared in the class, with their declared
defaults. -/
structure ProboscisConfig where
  test_directories : List String := ["test", "tests"]
  test_patterns : List String := ["test_*.py", "*_test.py"]
  exclude_patterns : List String := []
  rules : List (String × RuleConfig) := []
  output_format : String := "text"
  fail_on_error : Bool := false

/-- The attribute names a `ProboscisConfig` instance exposes: pydantic
generates instance attributes exactly for the fields declared on the model
class (`config.py` lines 19-48).  Pydantic v2's default `extra="ignore"`
silently drops unknown constructor keywords, so no other data attribute ever
exists on an instance. -/
def ProboscisConfig.fieldNames : List String :=
  ["test_directories", "test_patterns", "exclude_patterns",
   "rules", "output_format", "fail_on_error"]

/-- Python attribute access `config.<name>` on a `ProboscisConfig`:
it succeeds exactly when `name` is a declared pydantic field, and raises
`AttributeError` otherwise. -/
def ProboscisConfig.hasAttr (name : String) : Bool :=
  ProboscisConfig.fieldNames.contains name

/-- Lookup in an association list (leftmost binding wins, like a Python
dict that never holds duplicate keys). -/
def alookup {α : Type} : List (String × α) → String → Option α
  | [], _ => none
  | (k, v) :: rest, key => if k = key then some v else alookup rest key

/-- Method `ProboscisConfig.is_rule_enabled` (`config.py` lines 66-70):
a rule absent from the `rules` map is enabled by default. -/
def ProboscisConfig.is_rule_enabled (c : ProboscisConfig) (rule_id : String) : Bool :=
  match alookup c.rules rule_id with
  | none => true
  | some rc => rc.enabled

/-- The Rust extension object constructed by `RustLinterWrapper.__init__`.
The Rust code itself is not part of the repository's Python sources; the
wrapper only forwards four constructor arguments to it. -/
structure RustLinter where
  test_directories : List String
  test_patterns : List String
  exclude_patterns : List String
  strict_mode : Bool

/-- Body of `RustLinterWrapper.__init__` (`rust_linter.py` lines 20-30),
assuming the Rust extension is available.  The constructor reads the
attributes `test_directories`, `test_patterns`, `exclude_patterns` and
`strict_mode` off the config; each access raises `AttributeError` when the
name is not a pydantic field of `ProboscisConfig`.  The result is the
constructed engine or the name of the attribute whose access raised. -/
def RustLinterWrapper.init (config : ProboscisConfig) : Except String RustLinter :=
  if ¬ ProboscisConfig.hasAttr "test_directories" then .error "test_directories"
  else if ¬ ProboscisConfig.hasAttr "test_patterns" then .error "test_patterns"
  else if ¬ ProboscisConfig.hasAttr "exclude_patterns" then .error "exclude_patterns"
  else if ¬ ProboscisConfig.hasAttr "strict_mode" then .error "strict_mode"
  else .ok { test_directories := config.test_directories
             test_patterns := config.test_patterns
             exclude_patterns := config.exclude_patterns
             -- this branch is unreachable: `strict_mode` is not among the
             -- pydantic fields of `ProboscisConfig`, so the access raises and
             -- there is no value to forward; `false` is a dead placeholder
             strict_mode := false }

/-- Body of `ProboscisLinter.__init__` (`linter.py` lines 13-15): it
constructs a `RustLinterWrapper` from the config, so it raises whatever
the wrapper's constructor raises. -/
def ProboscisLinter.init (config : ProboscisConfig) : Except String RustLinter :=
  RustLinterWrapper.init config

/-- The methods defined on class `ProboscisLinter` (`linter.py`), besides
`__init__`.  The class has no base class other than `object` and defines no
`__getattr__`, so Python attribute lookup on an instance succeeds for exactly
these names (plus the instance attributes `_config` and `_rust_linter`). -/
def ProboscisLinter.methodNames : List String :=
  ["lint_project", "lint_file"]

/-- The methods defined on class `RustLinterWrapper` (`rust_linter.py`),
besides `__init__`. -/
def RustLinterWrapper.methodNames : List String :=
  ["lint_project", "lint_file", "lint_changed_files"]

/-- The method name the CLI's `--changed-only` branch looks up on the
`ProboscisLinter` instance it constructed (`cli.py` line 176:
`violations = linter.lint_changed_files(path)`). -/
def cliChangedOnlyMethod : String := "lint_changed_files"

/-- Dispatch performed by the `cli` function (`cli.py` lines 174-179) once
the linter object is built: with `--changed-only` it looks up
`lint_changed_files` on the `ProboscisLinter` instance, otherwise
`lint_project`.  The result is the resolved method name, or an
`AttributeError` carrying the missing name. -/
def cliLintDispatch (changed_only : Bool) : Except String String :=
  let name := if changed_only then cliChangedOnlyMethod else "lint_project"
  if ProboscisLinter.methodNames.contains name then .ok name
  else .error name

/-- A violation object produced by the Rust extension, as consumed by
`rust_linter.py`: the wrapper reads the listed attributes off it.  Severity
is kept as its raw string. -/
structure RustViolation where
  rule_name : String
  file_path : String
  line_number : Int
  function_name : String
  message : String
  severity : String
  fix_type : Option String := none
  fix_content : Option String := none
  fix_line : Option Int := none

/-- The `LintViolation` pydantic model (`models.py`).  `file_path` is the
path's string form; `severity` is kept as a string (the Python model
restricts it to the literals `error`/`warning`, which no claim concerns). -/
structure LintViolation where
  rule_name : String
  file_path : String
  line_number : Int
  function_name : String
  message : String
  severity : String
  fix_type : Option String := none
  fix_content : Option String := none
  fix_line : Option Int := none

/-- Rule-id extraction used by the wrapper's filters
(`rust_linter.py` line 49): the rule name is split on colons and the first
piece taken — the characters before the first colon, or the whole string
when there is none. -/
def ruleIdOf (rule_name : String) : String :=
  String.mk (rule_name.toList.takeWhile (fun c => c != ':'))

/-- Conversion of a Rust violation into the Python `LintViolation` model
performed inside `RustLinterWrapper.lint_project`
(`rust_linter.py` lines 53-63): a field-for-field copy. -/
def toLintViolation (rv : RustViolation) : LintViolation :=
  { rule_name := rv.rule_name
    file_path := rv.file_path
    line_number := rv.line_number
    function_name := rv.function_name
    message := rv.message
    severity := rv.severity
    fix_type := rv.fix_type
    fix_content := rv.fix_content
    fix_line := rv.fix_line }

/-- The responses of the Rust engine for one project: what its
`lint_project` and `check_test_markers` calls would return.  The engine's
internals are outside the Python sources; the wrapper treats both calls as
opaque producers of violation lists. -/
structure RustLintResults where
  lint_project_result : List RustViolation
  check_test_markers_result : List RustViolation

/-- Body of `RustLinterWrapper.lint_project` (`rust_linter.py` lines 32-67):
collect the Rust engine's source-rule violations, extend them with the
test-marker check's output only when rule PL004 is enabled, then convert,
keeping only violations whose rule id is enabled. -/
def RustLinterWrapper.lint_project (config : ProboscisConfig)
    (rust : RustLintResults) : List LintViolation :=
  let rust_violations :=
    rust.lint_project_result ++
      (if config.is_rule_enabled "PL004" then rust.check_test_markers_result else [])
  rust_violations.filterMap (fun rv =>
    if config.is_rule_enabled (ruleIdOf rv.rule_name) then some (toLintViolation rv)
    else none)

/-- Shape test used by the rule-conversion loop of
`ConfigLoader.load_from_file` (`config.py` lines 105-111): a rule entry is
processed when its value is a boolean or a table, and logged-and-skipped
otherwise. -/
def TomlValue.isRuleShape : TomlValue → Bool
  | .bool _ => true
  | .table _ => true
  | _ => false

/-- Construction `RuleConfig(**rule_value)` for a TOML table
(`config.py` line 109): pydantic fills `enabled` (default `True`) and
`options` (default empty) from the table and ignores unknown keys
(default `extra="ignore"`); a value of the wrong shape for a declared field
raises a `ValidationError`.  (Pydantic's lax string-to-bool coercions are
not modelled; no claim depends on them.) -/
def RuleConfig.fromTable (t : List (String × TomlValue)) : Except Unit RuleConfig := do
  let enabled ← match alookup t "enabled" with
    | none => Except.ok true
    | some (.bool b) => Except.ok b
    | some _ => Except.error ()
  let options ← match alookup t "options" with
    | none => Except.ok ([] : List (String × TomlValue))
    | some (.table entries) => Except.ok entries
    | some _ => Except.error ()
  return { enabled := enabled, options := options }

/-- The rule-conversion loop of `ConfigLoader.load_from_file`
(`config.py` lines 105-111): booleans become `RuleConfig(enabled=value)`,
tables go through `RuleConfig(**value)` (whose `ValidationError` propagates
to the surrounding `try`), anything else is logged and dropped. -/
def convertRules : List (String × TomlValue) → Except Unit (List (String × RuleConfig))
  | [] => .ok []
  | (rid, .bool b) :: rest =>
    match convertRules rest with
    | .ok r => .ok ((rid, { enabled := b }) :: r)
    | .error e => .error e
  | (rid, .table t) :: rest =>
    match RuleConfig.fromTable t with
    | .ok rc =>
      match convertRules rest with
      | .ok r => .ok ((rid, rc) :: r)
      | .error e => .error e
    | .error e => .error e
  | (_, _) :: rest => convertRules rest

/-- `ConfigLoader.load_from_file` (`config.py` lines 83-122) specialised to
an existing `pyproject.toml` whose `[tool.proboscis]` section consists of the
`rules` table alone (the situation claim C7 is about).  When the conversion
loop raises, the surrounding `try` catches and the loader returns the default
configuration; otherwise `ProboscisConfig(**proboscis_data)` succeeds, since
every other field takes its (valid) declared default. -/
def ConfigLoader.load_rules_section (rules_data : List (String × TomlValue)) : ProboscisConfig :=
  match convertRules rules_data with
  | .ok rc => { rules := rc }
  | .error _ => {}

/-- The pydantic field validators of `ProboscisConfig`
(`config.py` lines 50-64), run on every construction of the model:
`output_format` must be `text` or `json`; `test_directories` and
`test_patterns` must be non-empty lists. -/
def ProboscisConfig.validate (c : ProboscisConfig) : Except String ProboscisConfig :=
  if c.output_format ≠ "text" ∧ c.output_format ≠ "json" then
    .error "Invalid output format"
  else if c.test_directories = [] then .error "List cannot be empty"
  else if c.test_patterns = [] then .error "List cannot be empty"
  else .ok c

/-- `ConfigLoader.merge_cli_options` (`config.py` lines 146-163): dump the
input config to fresh data, override `output_format` and `fail_on_error`
when the CLI options are present, extend the exclude patterns when the CLI
exclude list is truthy (present and non-empty), and rebuild a
`ProboscisConfig` — which re-runs the field validators and can raise a
`ValidationError`. -/
def ConfigLoader.merge_cli_options (config : ProboscisConfig)
    (format : Option String) (fail_on_error : Option Bool)
    (exclude : Option (List String)) : Except String ProboscisConfig :=
  let fmt := match format with
    | some f => f
    | none => config.output_format
  let foe := match fail_on_error with
    | some b => b
    | none => config.fail_on_error
  let ep := match exclude with
    | some es => if es = [] then config.exclude_patterns
                 else config.exclude_patterns ++ es
    | none => config.exclude_patterns
  ProboscisConfig.validate
    { test_directories := config.test_directories
      test_patterns := config.test_patterns
      exclude_patterns := ep
      rules := config.rules
      output_format := fmt
      fail_on_error := foe }

/-- Python truthiness of an optional string (`None` and the empty string are
falsy), as used by the fix filter in `auto_fix.py` line 25. -/
def optStrTruthy : Option String → Bool
  | some s => s != ""
  | none => false

/-- Python truthiness of an optional integer (`None` and `0` are falsy). -/
def optIntTruthy : Option Int → Bool
  | some n => n != 0
  | none => false

/-- The guard of `AutoFixer.apply_fixes` (`auto_fix.py` line 25):
`violation.fix_type and violation.fix_content and violation.fix_line`. -/
def hasFix (v : LintViolation) : Bool :=
  optStrTruthy v.fix_type && optStrTruthy v.fix_content && optIntTruthy v.fix_line

/-- The per-instance fix counter `self.applied_fixes`, a
`defaultdict(int)`: an association list whose key order is first-access
order. -/
abbrev Counts := List (String × Nat)

/-- Mutation `self.applied_fixes[p] += 1` on a `defaultdict(int)`: an absent
key is created (appended) with value 1. -/
def Counts.bump : Counts → String → Counts
  | [], p => [(p, 1)]
  | (k, n) :: rest, p =>
    if k = p then (k, n + 1) :: rest else (k, n) :: Counts.bump rest p

/-- Read access `self.applied_fixes[p]` on a `defaultdict(int)` (performed by
the log statement at `auto_fix.py` line 57): an absent key is created
(appended) with value 0; the mapping is otherwise unchanged. -/
def Counts.touch : Counts → String → Counts
  | [], p => [(p, 0)]
  | (k, n) :: rest, p =>
    if k = p then (k, n) :: rest else (k, n) :: Counts.touch rest p

/-- The count recorded for a path, 0 when the key is absent. -/
def Counts.get (c : Counts) (p : String) : Nat :=
  (alookup c p).getD 0

/-- State of one file on disk: its lines (as returned by `readlines`, each
carrying its trailing newline) and whether opening it for reading/writing
succeeds. -/
structure FileState where
  lines : List String
  canRead : Bool := true
  canWrite : Bool := true

/-- The file system the auto-fixer reads and rewrites. -/
abbrev FileSystem := List (String × FileState)

/-- Opening a file for reading and calling `readlines`
(`auto_fix.py` lines 40-41): `none` models the `OSError` raised for a
missing or unreadable file. -/
def fsRead (fs : FileSystem) (p : String) : Option (List String) :=
  match alookup fs p with
  | some st => if st.canRead then some st.lines else none
  | none => none

/-- Whether opening the file for writing succeeds
(`auto_fix.py` line 54). -/
def fsCanWrite (fs : FileSystem) (p : String) : Bool :=
  match alookup fs p with
  | some st => st.canWrite
  | none => false

/-- Rewriting a file in place (`auto_fix.py` lines 54-55); opening an absent
path for writing creates it. -/
def fsWrite : FileSystem → String → List String → FileSystem
  | [], p, ls => [(p, { lines := ls })]
  | (k, st) :: rest, p, ls =>
    if k = p then (k, { st with lines := ls }) :: rest
    else (k, st) :: fsWrite rest p ls

/-- The current content of a file, ignoring permissions. -/
def fsLines (fs : FileSystem) (p : String) : Option (List String) :=
  (alookup fs p).map (fun st => st.lines)

/-- Appending a violation to its file's group in the
`defaultdict(list)` of `auto_fix.py` lines 23-26 (key order is first-insertion
order, values keep list order). -/
def addToGroup (groups : List (String × List LintViolation)) (p : String)
    (v : LintViolation) : List (String × List LintViolation) :=
  match groups with
  | [] => [(p, [v])]
  | (q, vs) :: rest =>
    if q = p then (q, vs ++ [v]) :: rest
    else (q, vs) :: addToGroup rest p v

/-- The grouping loop of `AutoFixer.apply_fixes` (`auto_fix.py` lines 22-26):
violations passing the truthiness guard are grouped by the string form of
their file path. -/
def groupByFile (violations : List LintViolation) : List (String × List LintViolation) :=
  violations.foldl (fun gs v => if hasFix v then addToGroup gs v.file_path v else gs) []

/-- Stable descending insertion by an integer key: the new element is placed
after every element with a key at least as large, so elements with equal
keys keep their original relative order — the behaviour of Python's stable
`sorted(key=k, reverse=True)`. -/
def insertDescBy (key : LintViolation → Int) (v : LintViolation) :
    List LintViolation → List LintViolation
  | [] => [v]
  | w :: ws =>
    if key v ≤ key w then w :: insertDescBy key v ws
    else v :: w :: ws

/-- Stable descending sort by an integer key (extensionally, Python's
`sorted(vs, key=k, reverse=True)`). -/
def sortDescBy (key : LintViolation → Int) (vs : List LintViolation) : List LintViolation :=
  vs.foldl (fun acc v => insertDescBy key v acc) []

/-- The sort key of `auto_fix.py` line 45 (`lambda v: v.fix_line`).  Inside
`_apply_fixes_to_file` every grouped violation has a truthy `fix_line`, so
the default never applies there. -/
def fixLineKey (v : LintViolation) : Int :=
  v.fix_line.getD 0

/-- Python indexing `l[i]` with a possibly negative index: a negative index
counts from the end; `none` models the `IndexError` raised when the index is
out of range on either side. -/
def pyGet {α : Type} (l : List α) (i : Int) : Option α :=
  if 0 ≤ i then l.get? i.toNat
  else if 0 ≤ (l.length : Int) + i then l.get? ((l.length : Int) + i).toNat
  else none

/-- Python `l.insert(i, x)`: the effective position is clamped into range
(negative indices count from the end), so insertion never raises. -/
def pyInsert {α : Type} (l : List α) (i : Int) (x : α) : List α :=
  let j : Nat := if i < 0 then ((l.length : Int) + i).toNat else min i.toNat l.length
  l.take j ++ x :: l.drop j

/-- Whether a line's stripped text starts with a decorator marker
(`auto_fix.py` line 69): after dropping surrounding whitespace the first
character is the at-sign.  Since stripping trailing whitespace cannot change
the first character, dropping the leading whitespace alone decides it; an
all-whitespace line strips to the empty string, which starts with
nothing. -/
def isDecoratorLine (s : String) : Bool :=
  match s.toList.dropWhile Char.isWhitespace with
  | c :: _ => c == '@'
  | [] => false

namespace AutoFixer

/-- Method `AutoFixer._get_indentation` (`auto_fix.py` lines 76-81): the
leading whitespace of the line, or the empty string for an all-whitespace
line. -/
def get_indentation (line : String) : String :=
  let stripped := line.toList.dropWhile Char.isWhitespace
  if stripped = [] then ""
  else String.mk (line.toList.takeWhile Char.isWhitespace)

/-- The decorator-stack walk of `auto_fix.py` lines 68-70 for a non-negative
start index: decrement while the preceding line is a decorator line.  While
the loop runs the inspected index is in range, so plain `getD` indexing is
faithful. -/
def walkUpN (lines : List String) : Nat → Nat
  | 0 => 0
  | i + 1 => if isDecoratorLine (lines.getD i "") then walkUpN lines i else i + 1

/-- The decorator-stack walk for an arbitrary (Python) integer start index:
the `insert_idx > 0` guard means a non-positive start is returned as is. -/
def walkUp (lines : List String) (i : Int) : Int :=
  if i ≤ 0 then i else (walkUpN lines i.toNat : Int)

/-- Method `AutoFixer._apply_add_decorator` (`auto_fix.py` lines 59-74):
find the function line (1-based `line_number`), take its indentation, walk
upward past contiguous decorator lines, and insert the fix text there.
`none` models the `IndexError` a deeply negative `line_number` raises on
the indexing at line 64; a `line_number` past the end of the file leaves the
lines untouched (the guard at line 63 fails). -/
def apply_add_decorator (lines : List String) (v : LintViolation) : Option (List String) :=
  let func_line_idx : Int := v.line_number - 1
  if func_line_idx < (lines.length : Int) then
    match pyGet lines func_line_idx with
    | none => none
    | some func_line =>
      let indent := get_indentation func_line
      let insert_idx := walkUp lines func_line_idx
      some (pyInsert lines insert_idx (indent ++ v.fix_content.getD "" ++ "\n"))
  else
    some lines

/-- The fix loop of `AutoFixer._apply_fixes_to_file`
(`auto_fix.py` lines 48-51) over the already-sorted violations: every
`add_decorator` fix is applied and then counted.  The second component is
`none` when `_apply_add_decorator` raised — the counter increments made
before the raise persist, the line edits are abandoned. -/
def applyLoop (path : String) :
    List String → Counts → List LintViolation → Counts × Option (List String)
  | lines, counts, [] => (counts, some lines)
  | lines, counts, v :: rest =>
    if v.fix_type = some "add_decorator" then
      match apply_add_decorator lines v with
      | some lines2 => applyLoop path lines2 (Counts.bump counts path) rest
      | none => (counts, none)
    else applyLoop path lines counts rest

/-- Method `AutoFixer._apply_fixes_to_file` (`auto_fix.py` lines 37-57), with
the caller's `try`/`except` folded in (the caller catches every exception and
merely logs it): read the file, sort its violations by `fix_line`
descending, run the fix loop, write the file back, and log — the log read
creates the file's counter key when no fix incremented it.  A read failure
leaves counts and file system untouched; a failure inside the loop or at the
write keeps the counter increments but abandons the edits. -/
def apply_fixes_to_file (counts : Counts) (fs : FileSystem) (path : String)
    (vs : List LintViolation) : Counts × FileSystem :=
  match fsRead fs path with
  | none => (counts, fs)
  | some lines =>
    match applyLoop path lines counts (sortDescBy fixLineKey vs) with
    | (counts2, none) => (counts2, fs)
    | (counts2, some lines2) =>
      if fsCanWrite fs path then (Counts.touch counts2 path, fsWrite fs path lines2)
      else (counts2, fs)

/-- The tail of `_apply_fixes_to_file` after the loop (`auto_fix.py`
lines 53-57), as a standalone function of the loop's outcome: an exception
in the loop abandons the edits; otherwise the file is written back when the
write succeeds, followed by the logging read of the counter. -/
def finishFile (fs : FileSystem) (p : String) (c2 : Counts) :
    Option (List String) → Counts × FileSystem
  | none => (c2, fs)
  | some lines2 =>
    if fsCanWrite fs p = true then (Counts.touch c2 p, fsWrite fs p lines2)
    else (c2, fs)

/-- Method `AutoFixer.apply_fixes` (`auto_fix.py` lines 16-35): group the
violations carrying complete fix information by file, apply each file's
fixes under a per-file exception guard, and return `dict(self.applied_fixes)`
— the cumulative counter state, seeded with whatever earlier calls on the
same instance accumulated. -/
def apply_fixes (counts : Counts) (fs : FileSystem) (violations : List LintViolation) :
    Counts × FileSystem :=
  (groupByFile violations).foldl
    (fun st g => apply_fixes_to_file st.1 st.2 g.1 g.2) (counts, fs)

end AutoFixer

/-- The insertion point the specification prescribes for a violation,
computed from the original, pre-fix lines: the function's 1-based
`line_number` walked upward past contiguous decorator lines. -/
def originalInsertIdx (lines : List String) (v : LintViolation) : Nat :=
  AutoFixer.walkUpN lines (v.line_number - 1).toNat

/-- The decorator line the specification prescribes for a violation,
computed from the original, pre-fix lines. -/
def specDecoratorLine (lines : List String) (v : LintViolation) : String :=
  AutoFixer.get_indentation (lines.getD (v.line_number - 1).toNat "") ++
    v.fix_content.getD "" ++ "\n"

/-- Modelled from the spec (claim C4, §4.6 of the specification): every
decorator is inserted "at the position determined by its original, pre-fix
line numbers" — the fixes are ordered by their pre-fix insertion point
descending and each is inserted at that pre-fix position, so no earlier
insertion shifts a later one. -/
def specApplyAll (lines : List String) (vs : List LintViolation) : List String :=
  (sortDescBy (fun v => (originalInsertIdx lines v : Int)) vs).foldl
    (fun ls v =>
      ls.take (originalInsertIdx lines v) ++
        specDecoratorLine lines v :: ls.drop (originalInsertIdx lines v)) lines

/-! ## Auxiliary definitions and concrete instances used by the claim
theorems, their witnesses and the counterexamples -/

/-- Concrete configuration for the C2 witness: PL002 disabled. -/
def witnessConfigC2 : ProboscisConfig :=
  { rules := [("PL002", { enabled := false })] }

/-- Concrete Rust-engine violation for the C2 witness. -/
def witnessRustViolation : RustViolation :=
  { rule_name := "PL001:require-unit-test"
    file_path := "src/module.py"
    line_number := 3
    function_name := "process"
    message := "missing unit test"
    severity := "error" }

/-- Concrete Rust-engine results for the C2 witness. -/
def witnessRustResults : RustLintResults :=
  { lint_project_result := [witnessRustViolation]
    check_test_markers_result := [] }

/-- Concrete rules table for the C7 witness: a valid boolean entry and an
entry whose value is a bare string — neither boolean nor table. -/
def witnessRulesData : List (String × TomlValue) :=
  [("PL001", .bool false), ("PL002", .str "yes")]

/-- Concrete file for the C5 witness: a method with an existing two-line
decorator stack. -/
def witnessLinesC5 : List String :=
  ["class T:\n", "    @pytest.fixture\n", "    @other\n",
   "    def test_m(self):\n", "        pass\n"]

/-- Concrete violation for the C5 witness. -/
def witnessViolationC5 : LintViolation :=
  { rule_name := "PL004:require-test-markers"
    file_path := "test/unit/test_m.py"
    line_number := 4
    function_name := "test_m"
    message := "missing marker"
    severity := "error"
    fix_type := some "add_decorator"
    fix_content := some "@pytest.mark.unit"
    fix_line := some 2 }

/-- Concrete state for the C6 witness: one file, one violation lacking its
fix line. -/
def witnessFsC6 : FileSystem :=
  [("src/m.py", { lines := ["def f():\n", "    pass\n"] })]

/-- Concrete violation for the C6 witness: `add_decorator` with a null
`fix_line`. -/
def witnessViolationC6 : LintViolation :=
  { rule_name := "PL001:require-unit-test"
    file_path := "src/m.py"
    line_number := 1
    function_name := "f"
    message := "missing unit test"
    severity := "error"
    fix_type := some "add_decorator"
    fix_content := some "@cover"
    fix_line := none }

/-- Concrete state for the C9 witness: a one-line file. -/
def witnessFsC9 : FileSystem :=
  [("a.py", { lines := ["x = 1\n"] })]

/-- Concrete violation for the C9 witness: its `line_number` 5 exceeds the
single line of the file. -/
def witnessViolationC9 : LintViolation :=
  { rule_name := "PL004:require-test-markers"
    file_path := "a.py"
    line_number := 5
    function_name := "t"
    message := "missing marker"
    severity := "error"
    fix_type := some "add_decorator"
    fix_content := some "@pytest.mark.unit"
    fix_line := some 5 }

/-- Two-line file content shared by the C3 counterexample's files. -/
def witnessLinesC3 : List String := ["def f():\n", "    pass\n"]

/-- File system for the C3 counterexample: `a.py` is fine, `b.py` cannot be
opened for writing. -/
def witnessFsC3 : FileSystem :=
  [("a.py", { lines := witnessLinesC3 }),
   ("b.py", { lines := witnessLinesC3, canWrite := false })]

/-- Fixable violation on `a.py` for the C3 counterexample. -/
def witnessViolationC3a : LintViolation :=
  { rule_name := "PL004:require-test-markers"
    file_path := "a.py"
    line_number := 1
    function_name := "f"
    message := "missing marker"
    severity := "error"
    fix_type := some "add_decorator"
    fix_content := some "@pytest.mark.unit"
    fix_line := some 1 }

/-- Fixable violation on the write-protected `b.py` for the C3
counterexample. -/
def witnessViolationC3b : LintViolation :=
  { witnessViolationC3a with file_path := "b.py" }

/-- Removal of one file's group from a grouping (the groups of "every other
file"). -/
def dropKey (p : String) : List (String × List LintViolation) → List (String × List LintViolation)
  | [] => []
  | (k, ws) :: rest =>
    if k = p then dropKey p rest else (k, ws) :: dropKey p rest

/-- Removal of one file's violations from a violation list (the violations
of "every other file"). -/
def dropFile (p : String) : List LintViolation → List LintViolation
  | [] => []
  | v :: rest =>
    if v.file_path = p then dropFile p rest else v :: dropFile p rest

/-- File system for the C3 witness: `b.py` cannot be opened for reading. -/
def witnessFsC3read : FileSystem :=
  [("a.py", { lines := witnessLinesC3 }),
   ("b.py", { lines := witnessLinesC3, canRead := false })]

/-- Iterated counter increment: the counter bumps the loop performs for a
file with `n` applied fixes. -/
def Counts.bumpN (c : Counts) (p : String) : Nat → Counts
  | 0 => c
  | n + 1 => Counts.bumpN (Counts.bump c p) p n

/-- Well-formedness of a file's fix list in descending processing order —
the order in which the loop sees the fixes after the `fix_line` sort —
relative to the file's pre-fix lines: every violation is an `add_decorator`
fix whose `fix_line` is exactly one more than its walked-back insertion
index (the spec's "first line of the existing decorator stack"), lying
within `[1, line_number]` with `line_number` inside the file; and the list
is ordered downward with disjoint spans — every later violation's whole
span lies strictly above the current violation's `fix_line`. -/
def FixChainOK (lines : List String) : List LintViolation → Prop
  | [] => True
  | v :: rest =>
    (v.fix_type = some "add_decorator" ∧
     ∃ f : Int, v.fix_line = some f ∧ 1 ≤ f ∧ f ≤ v.line_number ∧
       v.line_number ≤ (lines.length : Int) ∧
       (originalInsertIdx lines v : Int) = f - 1) ∧
    (∀ w ∈ rest, w.line_number < v.fix_line.getD 0) ∧
    FixChainOK lines rest

/-- Well-formedness of a file's fix list as the engine emits it, in **any**
input order, relative to the file's pre-fix lines: every violation is an
`add_decorator` fix whose `fix_line` is exactly one more than its
walked-back insertion index (the spec's "first line of the existing
decorator stack"), lying within `[1, line_number]` with `line_number`
inside the file; and the spans `[fix_line, line_number]` of any two
violations are disjoint — one lies entirely above the other.  Unlike
`FixChainOK`, this property is stable under permutation, so it covers the
engine's ascending per-file emission order; the code's descending sort is
what turns such a list into a `FixChainOK` chain. -/
def FixSetOK (lines : List String) (vs : List LintViolation) : Prop :=
  (∀ v ∈ vs, v.fix_type = some "add_decorator" ∧
    ∃ f : Int, v.fix_line = some f ∧ 1 ≤ f ∧ f ≤ v.line_number ∧
      v.line_number ≤ (lines.length : Int) ∧
      (originalInsertIdx lines v : Int) = f - 1) ∧
  List.Pairwise (fun v w =>
    w.line_number < fixLineKey v ∨ v.line_number < fixLineKey w) vs

/-- File content for the C4 counterexample. -/
def witnessLinesC4 : List String :=
  ["def a():\n", "    pass\n", "def b():\n", "    pass\n"]

/-- C4 counterexample violation whose `fix_line` (10) is larger though its
`line_number` (1) is smaller. -/
def witnessViolationC4hi : LintViolation :=
  { rule_name := "PL004:require-test-markers"
    file_path := "a.py"
    line_number := 1
    function_name := "a"
    message := "missing marker"
    severity := "error"
    fix_type := some "add_decorator"
    fix_content := some "@x"
    fix_line := some 10 }

/-- C4 counterexample violation whose `fix_line` (5) is smaller though its
`line_number` (3) is larger. -/
def witnessViolationC4lo : LintViolation :=
  { witnessViolationC4hi with
    line_number := 3
    function_name := "b"
    fix_content := some "@y"
    fix_line := some 5 }

/-- File system for the C4 counterexample. -/
def witnessFsC4 : FileSystem :=
  [("a.py", { lines := witnessLinesC4 })]

/-- File content for the C4 witness: `def b` carries one existing
decorator. -/
def witnessLinesC4wf : List String :=
  ["def a():\n", "    pass\n", "@dec\n", "def b():\n", "    pass\n"]

/-- First C4 witness violation: targets `def b` on line 4; its decorator
stack starts at line 3, so `fix_line` is 3. -/
def witnessViolationC4b : LintViolation :=
  { rule_name := "PL004:require-test-markers"
    file_path := "a.py"
    line_number := 4
    function_name := "b"
    message := "missing marker"
    severity := "error"
    fix_type := some "add_decorator"
    fix_content := some "@x"
    fix_line := some 3 }

/-- Second C4 witness violation: targets `def a` on line 1 with no existing
decorators, so `fix_line` is 1. -/
def witnessViolationC4a : LintViolation :=
  { witnessViolationC4b with
    line_number := 1
    function_name := "a"
    fix_content := some "@y"
    fix_line := some 1 }

/-- File system for the C4 witness. -/
def witnessFsC4wf : FileSystem :=
  [("a.py", { lines := witnessLinesC4wf })]

/-! ## Claim C1 -/

/-- C1: the claim asserts that `config.strict_mode` — the attribute access
`RustLinterWrapper.__init__` performs while constructing the engine —
succeeds on every `ProboscisConfig` and returns a bool.  On the code it does
not: `strict_mode` is not among the pydantic fields of `ProboscisConfig`, so
the access raises `AttributeError`, and hence every `ProboscisLinter`
construction (which always builds a `RustLinterWrapper`) fails with that
error.  The spec, and the repository's own tests (which construct configs
with `strict_mode=True` and lint with them), clearly intend the field to
exist: the code is the slip. -/
theorem C1_strict_mode_attribute_error :
    ProboscisConfig.hasAttr "strict_mode" = false ∧
    ∀ config : ProboscisConfig,
      Proboscis.ProboscisLinter.init config = Except.error "strict_mode" :=
  ⟨rfl, fun _ => rfl⟩

/-! ## Claim C8 -/

/-- C8: the CLI's `--changed-only` branch looks up `lint_changed_files` on
the `ProboscisLinter` instance it constructed, but `ProboscisLinter` defines
only `lint_project` and `lint_file`; the lookup raises `AttributeError`
instead of linting the git-changed files.  Only the inner
`RustLinterWrapper` has that method. -/
theorem C8_changed_only_attribute_error :
    cliLintDispatch true = Except.error "lint_changed_files" ∧
    cliLintDispatch false = Except.ok "lint_project" ∧
    RustLinterWrapper.methodNames.contains "lint_changed_files" = true ∧
    ProboscisLinter.methodNames.contains "lint_changed_files" = false :=
  ⟨rfl, rfl, rfl, rfl⟩

/-! ## Claim C2 -/

/-- C2: the violation list returned by `RustLinterWrapper.lint_project`
never contains a violation whose rule id (the part of `rule_name` before the
first colon) is disabled in the configuration, and when rule PL004 is
disabled the result does not depend on the test-marker check's output at
all (the check is skipped). -/
theorem C2_disabled_rules_filtered :
    (∀ (config : ProboscisConfig) (rust : RustLintResults) (v : LintViolation),
        v ∈ RustLinterWrapper.lint_project config rust →
        config.is_rule_enabled (ruleIdOf v.rule_name) = true) ∧
    (∀ (config : ProboscisConfig) (rust : RustLintResults),
        config.is_rule_enabled "PL004" = false →
        RustLinterWrapper.lint_project config rust =
          RustLinterWrapper.lint_project config
            { rust with check_test_markers_result := [] }) := by
  constructor
  · intro config rust v hv
    simp only [RustLinterWrapper.lint_project, List.mem_filterMap] at hv
    obtain ⟨rv, _, hrv⟩ := hv
    by_cases h : config.is_rule_enabled (ruleIdOf rv.rule_name) = true
    · rw [if_pos h] at hrv
      cases hrv
      simpa [toLintViolation] using h
    · rw [if_neg h] at hrv
      exact absurd hrv (by simp)
  · intro config rust h
    simp [RustLinterWrapper.lint_project, h]

/-- C2 witness: the theorem applied at a concrete configuration (PL002
disabled), concrete engine output and a concrete member of the returned
list. -/
theorem C2_disabled_rules_filtered_witness :
    witnessConfigC2.is_rule_enabled
      (ruleIdOf (toLintViolation witnessRustViolation).rule_name) = true :=
  C2_disabled_rules_filtered.1 witnessConfigC2 witnessRustResults
    (toLintViolation witnessRustViolation)
    (by
      rw [show RustLinterWrapper.lint_project witnessConfigC2 witnessRustResults =
            [toLintViolation witnessRustViolation] from rfl]
      exact List.mem_singleton.mpr rfl)

/-! ## Claim C7 -/

/-- Keys absent from an association list look up to nothing. -/
theorem alookup_eq_none {α : Type} :
    ∀ (l : List (String × α)) (k : String), k ∉ l.map Prod.fst → alookup l k = none
  | [], _, _ => rfl
  | (k0, _) :: rest, k, h => by
    have hk : k0 ≠ k := by
      intro he
      exact h (by simp [he])
    simp only [alookup, if_neg hk]
    exact alookup_eq_none rest k (fun hm => h (List.mem_cons_of_mem _ hm))

/-- In an association list with no duplicate keys, a key determines its
value. -/
theorem nodup_keys_unique {α : Type} :
    ∀ (l : List (String × α)) (k : String) (a b : α),
      (l.map Prod.fst).Nodup → (k, a) ∈ l → (k, b) ∈ l → a = b := by
  intro l
  induction l with
  | nil => intro k a b _ ha; cases ha
  | cons hd tl ih =>
    intro k a b hnd ha hb
    obtain ⟨hhd, hnd'⟩ := List.nodup_cons.mp hnd
    rcases List.mem_cons.mp ha with ha' | ha'
    · rcases List.mem_cons.mp hb with hb' | hb'
      · exact congrArg Prod.snd (ha'.trans hb'.symm)
      · exfalso
        apply hhd
        have hk : hd.1 = k := (congrArg Prod.fst ha').symm
        rw [hk]
        exact List.mem_map_of_mem Prod.fst hb'
    · rcases List.mem_cons.mp hb with hb' | hb'
      · exfalso
        apply hhd
        have hk : hd.1 = k := (congrArg Prod.fst hb').symm
        rw [hk]
        exact List.mem_map_of_mem Prod.fst ha'
      · exact ih k a b hnd' ha' hb'

/-- Every key of a successful rule conversion comes from an input entry
whose value had an accepted shape (boolean or table). -/
theorem convertRules_keys :
    ∀ (l : List (String × TomlValue)) (res : List (String × RuleConfig)),
      convertRules l = Except.ok res → ∀ k, k ∈ res.map Prod.fst →
      ∃ w, (k, w) ∈ l ∧ w.isRuleShape = true := by
  intro l
  induction l with
  | nil =>
    intro res h k hk
    simp only [convertRules] at h
    cases h
    cases hk
  | cons hd tl ih =>
    obtain ⟨rid, v⟩ := hd
    intro res h k hk
    cases v with
    | bool b =>
      rw [show convertRules ((rid, TomlValue.bool b) :: tl) =
            (match convertRules tl with
             | .ok r => .ok ((rid, { enabled := b }) :: r)
             | .error e => .error e) from rfl] at h
      cases hr : convertRules tl with
      | error e => rw [hr] at h; cases h
      | ok r =>
        rw [hr] at h
        injection h with h2
        subst h2
        rcases List.mem_map.mp hk with ⟨⟨k', rc⟩, hmem, hfst⟩
        rcases List.mem_cons.mp hmem with he | he
        · rw [← hfst, he]
          exact ⟨.bool b, List.mem_cons_self _ _, rfl⟩
        · obtain ⟨w, hw, hws⟩ := ih r hr k (hfst ▸ List.mem_map_of_mem Prod.fst he)
          exact ⟨w, List.mem_cons_of_mem _ hw, hws⟩
    | table t =>
      rw [show convertRules ((rid, TomlValue.table t) :: tl) =
            (match RuleConfig.fromTable t with
             | .ok rc =>
               match convertRules tl with
               | .ok r => .ok ((rid, rc) :: r)
               | .error e => .error e
             | .error e => .error e) from rfl] at h
      cases hrc : RuleConfig.fromTable t with
      | error e => rw [hrc] at h; cases h
      | ok rc0 =>
        rw [hrc] at h
        cases hr : convertRules tl with
        | error e => rw [hr] at h; cases h
        | ok r =>
          rw [hr] at h
          injection h with h2
          subst h2
          rcases List.mem_map.mp hk with ⟨⟨k', rc⟩, hmem, hfst⟩
          rcases List.mem_cons.mp hmem with he | he
          · rw [← hfst, he]
            exact ⟨.table t, List.mem_cons_self _ _, rfl⟩
          · obtain ⟨w, hw, hws⟩ := ih r hr k (hfst ▸ List.mem_map_of_mem Prod.fst he)
            exact ⟨w, List.mem_cons_of_mem _ hw, hws⟩
    | str s =>
      obtain ⟨w, hw, hws⟩ := ih res h k hk
      exact ⟨w, List.mem_cons_of_mem _ hw, hws⟩
    | int n =>
      obtain ⟨w, hw, hws⟩ := ih res h k hk
      exact ⟨w, List.mem_cons_of_mem _ hw, hws⟩
    | arr items =>
      obtain ⟨w, hw, hws⟩ := ih res h k hk
      exact ⟨w, List.mem_cons_of_mem _ hw, hws⟩

/-- Dropping the entries of rejected shape before conversion changes
nothing: the conversion loop itself drops them. -/
theorem convertRules_filter :
    ∀ l : List (String × TomlValue),
      convertRules l = convertRules (l.filter (fun e => e.2.isRuleShape)) := by
  intro l
  induction l with
  | nil => rfl
  | cons hd tl ih =>
    obtain ⟨rid, v⟩ := hd
    cases v with
    | bool b =>
      rw [List.filter_cons_of_pos (by rfl)]
      show (match convertRules tl with
            | .ok r => Except.ok ((rid, ({ enabled := b } : RuleConfig)) :: r)
            | .error e => .error e) =
           (match convertRules (tl.filter (fun e => e.2.isRuleShape)) with
            | .ok r => Except.ok ((rid, ({ enabled := b } : RuleConfig)) :: r)
            | .error e => .error e)
      rw [ih]
    | table t =>
      rw [List.filter_cons_of_pos (by rfl)]
      show (match RuleConfig.fromTable t with
            | .ok rc =>
              match convertRules tl with
              | .ok r => Except.ok ((rid, rc) :: r)
              | .error e => .error e
            | .error e => .error e) =
           (match RuleConfig.fromTable t with
            | .ok rc =>
              match convertRules (tl.filter (fun e => e.2.isRuleShape)) with
              | .ok r => Except.ok ((rid, rc) :: r)
              | .error e => .error e
            | .error e => .error e)
      rw [ih]
    | str s =>
      rw [List.filter_cons_of_neg (by simp [TomlValue.isRuleShape])]
      exact ih
    | int n =>
      rw [List.filter_cons_of_neg (by simp [TomlValue.isRuleShape])]
      exact ih
    | arr items =>
      rw [List.filter_cons_of_neg (by simp [TomlValue.isRuleShape])]
      exact ih

/-- C7: a `[tool.proboscis.rules]` entry whose value is neither a boolean
nor a table is dropped (logged only) without aborting the load — conversion
of the remaining entries proceeds exactly as if the entry were absent — and
`is_rule_enabled` afterwards returns `True`, the rule-enabled default, for
that rule. -/
theorem C7_invalid_rule_value_defaults :
    ∀ (rules_data : List (String × TomlValue)) (rid : String) (v : TomlValue),
      (rid, v) ∈ rules_data →
      v.isRuleShape = false →
      (rules_data.map Prod.fst).Nodup →
      (ConfigLoader.load_rules_section rules_data).is_rule_enabled rid = true ∧
      convertRules rules_data =
        convertRules (rules_data.filter (fun e => e.2.isRuleShape)) := by
  intro rules_data rid v hmem hshape hnd
  refine ⟨?_, convertRules_filter rules_data⟩
  unfold ConfigLoader.load_rules_section
  cases h : convertRules rules_data with
  | error e => simp [ProboscisConfig.is_rule_enabled, alookup]
  | ok rc =>
    simp only [ProboscisConfig.is_rule_enabled]
    have hnone : alookup rc rid = none := by
      apply alookup_eq_none
      intro hk
      obtain ⟨w, hw, hws⟩ := convertRules_keys rules_data rc h rid hk
      have := nodup_keys_unique rules_data rid v w hnd hmem hw
      rw [← this] at hws
      rw [hshape] at hws
      cases hws
    rw [hnone]

/-- C7 witness: the theorem applied to the concrete rules table with the
invalid `PL002` entry. -/
theorem C7_invalid_rule_value_defaults_witness :
    (ConfigLoader.load_rules_section witnessRulesData).is_rule_enabled "PL002" = true ∧
    convertRules witnessRulesData =
      convertRules (witnessRulesData.filter (fun e => e.2.isRuleShape)) :=
  C7_invalid_rule_value_defaults witnessRulesData "PL002" (.str "yes")
    (List.mem_cons_of_mem _ (List.mem_cons_self _ _)) rfl
    (by simp [witnessRulesData])

/-! ## Claim C10 -/

/-- C10 counterexample: the claim says `merge_cli_options` always returns a
fresh `ProboscisConfig` with the CLI overrides applied, but rebuilding the
model re-runs the pydantic field validators — with the default input config
and CLI format `xml` (not `None`) the construction raises a
`ValidationError` instead of returning a config. -/
theorem C10_merge_cli_options_counterexample :
    ConfigLoader.merge_cli_options {} (some "xml") none none =
      Except.error "Invalid output format" := rfl

/-- C10 (amended): provided the CLI format option, when present, is one of
the accepted values `text`/`json` (otherwise the rebuilt model's validator
raises), `merge_cli_options` returns a fresh `ProboscisConfig` in which
`output_format` and `fail_on_error` are overridden exactly when the
corresponding CLI option is present, the CLI exclude patterns are appended
after the input's `exclude_patterns` with both orders preserved, and every
other field equals the input's.  (The input itself is a value in this
embedding; the Python function builds the result from `model_dump` data, so
the input object is likewise left unchanged.) -/
theorem C10_merge_cli_options_amended :
    ∀ (config : ProboscisConfig) (format : Option String)
      (fail_on_error : Option Bool) (exclude : Option (List String)),
      (format = none ∨ format = some "text" ∨ format = some "json") →
      (config.output_format = "text" ∨ config.output_format = "json") →
      config.test_directories ≠ [] →
      config.test_patterns ≠ [] →
      ConfigLoader.merge_cli_options config format fail_on_error exclude =
        Except.ok
          { config with
            output_format := format.getD config.output_format
            fail_on_error := fail_on_error.getD config.fail_on_error
            exclude_patterns := config.exclude_patterns ++ exclude.getD [] } := by
  intro config format fail_on_error exclude hfmt hcfg htd htp
  have hfmt_valid :
      (format.getD config.output_format = "text" ∨
       format.getD config.output_format = "json") := by
    rcases hfmt with h | h | h <;> simp [h, hcfg]
  have hnotbad : ¬(format.getD config.output_format ≠ "text" ∧
      format.getD config.output_format ≠ "json") := by
    rcases hfmt_valid with h | h <;> simp [h]
  unfold ConfigLoader.merge_cli_options ProboscisConfig.validate
  cases format <;> cases fail_on_error <;>
    (cases exclude with
     | none => simp_all [Option.getD]
     | some es => by_cases he : es = [] <;> simp_all [Option.getD])

/-- C10 witness: the amended theorem applied to the default configuration
with concrete CLI options (format `json`, fail-on-error set, one exclude
pattern). -/
theorem C10_merge_cli_options_amended_witness :
    ConfigLoader.merge_cli_options {} (some "json") (some true) (some ["**/gen/**"]) =
      Except.ok
        { ({} : ProboscisConfig) with
          output_format := "json"
          fail_on_error := true
          exclude_patterns := ["**/gen/**"] } :=
  C10_merge_cli_options_amended {} (some "json") (some true) (some ["**/gen/**"])
    (Or.inr (Or.inr rfl)) (Or.inl rfl) (by decide) (by decide)

/-! ## List and index helper lemmas -/

/-- In-range optional indexing agrees with defaulted indexing. -/
theorem list_get?_getD {α : Type} :
    ∀ (l : List α) (n : Nat) (d : α), n < l.length → l.get? n = some (l.getD n d)
  | [], _, _, h => absurd h (by simp)
  | _ :: _, 0, _, _ => rfl
  | _ :: l, n + 1, d, h => list_get?_getD l n d (Nat.lt_of_succ_lt_succ h)

/-- `pyGet` at an in-range non-negative index returns the element. -/
theorem pyGet_nonneg_lt {α : Type} (l : List α) (i : Int) (d : α)
    (h0 : 0 ≤ i) (hl : i.toNat < l.length) :
    pyGet l i = some (l.getD i.toNat d) := by
  unfold pyGet
  rw [if_pos h0]
  exact list_get?_getD l i.toNat d hl

/-- `pyInsert` at an in-range non-negative index splices the element in. -/
theorem pyInsert_nonneg {α : Type} (l : List α) (i : Int) (x : α)
    (h0 : 0 ≤ i) (hl : i.toNat ≤ l.length) :
    pyInsert l i x = l.take i.toNat ++ x :: l.drop i.toNat := by
  unfold pyInsert
  rw [if_neg (by omega : ¬ i < 0), Nat.min_eq_left hl]

/-- The decorator walk never moves down. -/
theorem walkUpN_le (lines : List String) : ∀ i : Nat, AutoFixer.walkUpN lines i ≤ i
  | 0 => Nat.le_refl 0
  | i + 1 => by
    unfold AutoFixer.walkUpN
    by_cases h : isDecoratorLine (lines.getD i "") = true
    · rw [if_pos h]
      exact Nat.le_trans (walkUpN_le lines i) (Nat.le_succ i)
    · rw [if_neg h]

/-- Every line the decorator walk skipped over is a decorator line. -/
theorem walkUpN_decorated (lines : List String) :
    ∀ i j : Nat, AutoFixer.walkUpN lines i ≤ j → j < i →
      isDecoratorLine (lines.getD j "") = true
  | 0, j, _, hj => absurd hj (Nat.not_lt_zero j)
  | i + 1, j, hk, hj => by
    unfold AutoFixer.walkUpN at hk
    by_cases h : isDecoratorLine (lines.getD i "") = true
    · rw [if_pos h] at hk
      rcases Nat.lt_succ_iff_lt_or_eq.mp hj with hj' | hj'
      · exact walkUpN_decorated lines i j hk hj'
      · subst hj'; exact h
    · rw [if_neg h] at hk
      omega

/-- The decorator walk stops at the top of the file or below a
non-decorator line. -/
theorem walkUpN_boundary (lines : List String) :
    ∀ i : Nat, AutoFixer.walkUpN lines i = 0 ∨
      isDecoratorLine (lines.getD (AutoFixer.walkUpN lines i - 1) "") = false
  | 0 => Or.inl rfl
  | i + 1 => by
    unfold AutoFixer.walkUpN
    by_cases h : isDecoratorLine (lines.getD i "") = true
    · rw [if_pos h]
      exact walkUpN_boundary lines i
    · rw [if_neg h]
      right
      rcases Bool.eq_false_or_eq_true (isDecoratorLine (lines.getD (i + 1 - 1) "")) with ht | hf
      · exact absurd ht (by simpa using h)
      · exact hf

/-- The signed walk agrees with the unsigned walk on non-negative starts. -/
theorem walkUp_toNat (lines : List String) (i : Int) (h0 : 0 ≤ i) :
    AutoFixer.walkUp lines i = (AutoFixer.walkUpN lines i.toNat : Int) := by
  unfold AutoFixer.walkUp
  by_cases h : i ≤ 0
  · have hz : i = 0 := le_antisymm h h0
    subst hz
    rw [if_pos (le_refl (0 : Int))]
    simp [AutoFixer.walkUpN]
  · rw [if_neg h]

/-! ## Claim C5 -/

/-- C5: for an `add_decorator` fix whose 1-based `line_number` lies within
the file, `_apply_add_decorator` inserts exactly one new line — the fix
content prefixed by the indentation of the def line at `line_number` — at
the walked-back insertion point: at or above the def line, above the whole
contiguous stack of immediately preceding decorator lines (every skipped
line is a decorator line, and the line just above the insertion point, when
one exists, is not).  All other lines are kept verbatim in order, so the
pre-existing decorators keep their relative order and indentation and the
new decorator is the outermost of the stack. -/
theorem C5_add_decorator_insertion :
    ∀ (lines : List String) (v : LintViolation) (c : String),
      1 ≤ v.line_number → v.line_number ≤ (lines.length : Int) →
      v.fix_content = some c →
      AutoFixer.apply_add_decorator lines v =
        some (lines.take (originalInsertIdx lines v) ++
          (AutoFixer.get_indentation (lines.getD (v.line_number - 1).toNat "") ++ c ++ "\n")
            :: lines.drop (originalInsertIdx lines v)) ∧
      originalInsertIdx lines v ≤ (v.line_number - 1).toNat ∧
      (∀ j : Nat, originalInsertIdx lines v ≤ j → j < (v.line_number - 1).toNat →
        isDecoratorLine (lines.getD j "") = true) ∧
      (originalInsertIdx lines v = 0 ∨
        isDecoratorLine (lines.getD (originalInsertIdx lines v - 1) "") = false) := by
  intro lines v c h1 h2 hc
  have h0 : 0 ≤ v.line_number - 1 := by omega
  have hilen : (v.line_number - 1).toNat < lines.length := by omega
  refine ⟨?_, walkUpN_le lines _, walkUpN_decorated lines _, walkUpN_boundary lines _⟩
  simp only [AutoFixer.apply_add_decorator]
  rw [if_pos (show v.line_number - 1 < (lines.length : Int) by omega)]
  rw [pyGet_nonneg_lt lines (v.line_number - 1) "" h0 hilen]
  dsimp only
  rw [hc]
  dsimp only [Option.getD]
  rw [walkUp_toNat lines (v.line_number - 1) h0]
  rw [pyInsert_nonneg lines _ _ (by positivity)
    (by

      have hle := walkUpN_le lines (v.line_number - 1).toNat
      omega)]
  have htn : ((AutoFixer.walkUpN lines (v.line_number - 1).toNat : Nat) : Int).toNat =
      AutoFixer.walkUpN lines (v.line_number - 1).toNat := by omega
  rw [htn]
  rfl

/-- C5 witness: the theorem applied to a concrete file and fix; the new
decorator lands above the existing stack with the def line's
indentation. -/
theorem C5_add_decorator_insertion_witness :
    AutoFixer.apply_add_decorator witnessLinesC5 witnessViolationC5 =
      some (witnessLinesC5.take (originalInsertIdx witnessLinesC5 witnessViolationC5) ++
        (AutoFixer.get_indentation
            (witnessLinesC5.getD (witnessViolationC5.line_number - 1).toNat "") ++
              "@pytest.mark.unit" ++ "\n")
          :: witnessLinesC5.drop (originalInsertIdx witnessLinesC5 witnessViolationC5)) :=
  (C5_add_decorator_insertion witnessLinesC5 witnessViolationC5 "@pytest.mark.unit"
    (by decide) (by decide) rfl).1

/-! ## Frame lemmas for the counter state and the file system -/

/-- Incrementing one counter leaves the other keys' bindings unchanged. -/
theorem alookup_bump_ne (c : Counts) (p q : String) (h : q ≠ p) :
    alookup (Counts.bump c p) q = alookup c q := by
  induction c with
  | nil =>
    simp only [Counts.bump, alookup]
    rw [if_neg (Ne.symm h)]
  | cons hd tl ih =>
    obtain ⟨k, n⟩ := hd
    by_cases hk : k = p
    · subst hk
      simp only [Counts.bump, if_pos rfl, alookup]
      rw [if_neg (Ne.symm h), if_neg (Ne.symm h)]
    · simp only [Counts.bump, if_neg hk, alookup]
      by_cases hkq : k = q
      · rw [if_pos hkq, if_pos hkq]
      · rw [if_neg hkq, if_neg hkq]
        exact ih

/-- Incrementing a counter gives it its previous value plus one. -/
theorem alookup_bump_self (c : Counts) (p : String) :
    alookup (Counts.bump c p) p = some (Counts.get c p + 1) := by
  induction c with
  | nil => simp [Counts.bump, alookup, Counts.get]
  | cons hd tl ih =>
    obtain ⟨k, n⟩ := hd
    by_cases hk : k = p
    · subst hk
      simp [Counts.bump, alookup, Counts.get]
    · simp [Counts.bump, if_neg hk, alookup, hk, Counts.get, ih]

/-- The increment seen through `Counts.get`. -/
theorem get_bump_self (c : Counts) (p : String) :
    Counts.get (Counts.bump c p) p = Counts.get c p + 1 := by
  simp [Counts.get, alookup_bump_self]

/-- A counter never decreases under an increment, at any key. -/
theorem get_bump_le (c : Counts) (p q : String) :
    Counts.get c q ≤ Counts.get (Counts.bump c p) q := by
  by_cases h : q = p
  · subst h
    rw [get_bump_self]
    exact Nat.le_succ _
  · simp [Counts.get, alookup_bump_ne c p q h]

/-- The log-read access changes no counter value. -/
theorem get_touch (c : Counts) (p q : String) :
    Counts.get (Counts.touch c p) q = Counts.get c q := by
  induction c with
  | nil =>
    by_cases h : p = q <;> simp [Counts.touch, Counts.get, alookup, h]
  | cons hd tl ih =>
    obtain ⟨k, n⟩ := hd
    by_cases hk : k = p
    · subst hk
      simp [Counts.touch, Counts.get, alookup]
    · simp only [Counts.touch, if_neg hk]
      by_cases hkq : k = q
      · simp [Counts.get, alookup, hkq]
      · simpa [Counts.get, alookup, hkq] using ih

/-- The log-read access leaves other keys' bindings unchanged. -/
theorem alookup_touch_ne (c : Counts) (p q : String) (h : q ≠ p) :
    alookup (Counts.touch c p) q = alookup c q := by
  induction c with
  | nil =>
    simp only [Counts.touch, alookup]
    rw [if_neg (Ne.symm h)]
  | cons hd tl ih =>
    obtain ⟨k, n⟩ := hd
    by_cases hk : k = p
    · subst hk
      simp only [Counts.touch, if_pos rfl, alookup]
    · simp only [Counts.touch, if_neg hk, alookup]
      by_cases hkq : k = q
      · rw [if_pos hkq, if_pos hkq]
      · rw [if_neg hkq, if_neg hkq]
        exact ih

/-- Rewriting one file leaves the other paths' entries unchanged. -/
theorem alookup_fsWrite_ne (fs : FileSystem) (p q : String) (ls : List String)
    (h : q ≠ p) : alookup (fsWrite fs p ls) q = alookup fs q := by
  induction fs with
  | nil =>
    simp only [fsWrite, alookup]
    rw [if_neg (Ne.symm h)]
  | cons hd tl ih =>
    obtain ⟨k, st⟩ := hd
    by_cases hk : k = p
    · subst hk
      simp only [fsWrite, if_pos rfl, alookup]
      rw [if_neg (Ne.symm h), if_neg (Ne.symm h)]
    · simp only [fsWrite, if_neg hk, alookup]
      by_cases hkq : k = q
      · rw [if_pos hkq, if_pos hkq]
      · rw [if_neg hkq, if_neg hkq]
        exact ih

/-- After a rewrite the file holds exactly the written lines. -/
theorem fsLines_fsWrite_self (fs : FileSystem) (p : String) (ls : List String) :
    fsLines (fsWrite fs p ls) p = some ls := by
  induction fs with
  | nil => simp [fsWrite, fsLines, alookup]
  | cons hd tl ih =>
    obtain ⟨k, st⟩ := hd
    by_cases hk : k = p
    · subst hk
      simp [fsWrite, fsLines, alookup]
    · simpa [fsWrite, if_neg hk, fsLines, alookup, hk] using ih

/-- The fix loop touches no counter key other than its own path. -/
theorem applyLoop_alookup_ne (path q : String) (h : q ≠ path) :
    ∀ (vs : List LintViolation) (lines : List String) (c : Counts),
      alookup (AutoFixer.applyLoop path lines c vs).1 q = alookup c q := by
  intro vs
  induction vs with
  | nil => intro lines c; rfl
  | cons v rest ih =>
    intro lines c
    simp only [AutoFixer.applyLoop]
    by_cases hv : v.fix_type = some "add_decorator"
    · rw [if_pos hv]
      cases AutoFixer.apply_add_decorator lines v with
      | none => rfl
      | some lines2 => rw [ih lines2 (Counts.bump c path), alookup_bump_ne c path q h]
    · rw [if_neg hv]
      exact ih lines c

/-- The fix loop never decreases a counter, at any key. -/
theorem applyLoop_get_le (path q : String) :
    ∀ (vs : List LintViolation) (lines : List String) (c : Counts),
      Counts.get c q ≤ Counts.get (AutoFixer.applyLoop path lines c vs).1 q := by
  intro vs
  induction vs with
  | nil => intro lines c; exact Nat.le_refl _
  | cons v rest ih =>
    intro lines c
    simp only [AutoFixer.applyLoop]
    by_cases hv : v.fix_type = some "add_decorator"
    · rw [if_pos hv]
      cases AutoFixer.apply_add_decorator lines v with
      | none => exact Nat.le_refl _
      | some lines2 =>
        exact Nat.le_trans (get_bump_le c path q) (ih lines2 (Counts.bump c path))
    · rw [if_neg hv]
      exact ih lines c

/-- A loop over violations none of which carries an `add_decorator` fix type
changes nothing: no line edit, no counter increment. -/
theorem applyLoop_no_add (path : String) :
    ∀ (vs : List LintViolation) (lines : List String) (c : Counts),
      (∀ w ∈ vs, w.fix_type ≠ some "add_decorator") →
      AutoFixer.applyLoop path lines c vs = (c, some lines) := by
  intro vs
  induction vs with
  | nil => intro lines c _; rfl
  | cons v rest ih =>
    intro lines c hno
    simp only [AutoFixer.applyLoop]
    rw [if_neg (hno v (List.mem_cons_self _ _))]
    exact ih lines c (fun w hw => hno w (List.mem_cons_of_mem _ hw))

/-- Membership through the stable descending insertion. -/
theorem mem_insertDescBy (key : LintViolation → Int) (v w : LintViolation) :
    ∀ l : List LintViolation, w ∈ insertDescBy key v l → w = v ∨ w ∈ l := by
  intro l
  induction l with
  | nil =>
    intro h
    rcases List.mem_cons.mp h with h' | h'
    · exact Or.inl h'
    · cases h'
  | cons x xs ih =>
    intro h
    simp only [insertDescBy] at h
    by_cases hk : key v ≤ key x
    · rw [if_pos hk] at h
      rcases List.mem_cons.mp h with h' | h'
      · exact Or.inr (h' ▸ List.mem_cons_self _ _)
      · rcases ih h' with h'' | h''
        · exact Or.inl h''
        · exact Or.inr (List.mem_cons_of_mem _ h'')
    · rw [if_neg hk] at h
      rcases List.mem_cons.mp h with h' | h'
      · exact Or.inl h'
      · exact Or.inr h'

/-- Membership through the stable descending sort. -/
theorem mem_sortDescBy (key : LintViolation → Int) (w : LintViolation) :
    ∀ (vs acc : List LintViolation),
      w ∈ vs.foldl (fun acc v => insertDescBy key v acc) acc →
      w ∈ vs ∨ w ∈ acc := by
  intro vs
  induction vs with
  | nil => intro acc h; exact Or.inr h
  | cons v rest ih =>
    intro acc h
    rcases ih (insertDescBy key v acc) h with h' | h'
    · exact Or.inl (List.mem_cons_of_mem _ h')
    · rcases mem_insertDescBy key v w acc h' with h'' | h''
      · exact Or.inl (h'' ▸ List.mem_cons_self _ _)
      · exact Or.inr h''

/-- Sorting introduces no new violations. -/
theorem mem_of_mem_sortDescBy (key : LintViolation → Int) (w : LintViolation)
    (vs : List LintViolation) (h : w ∈ sortDescBy key vs) : w ∈ vs := by
  rcases mem_sortDescBy key w vs [] h with h' | h'
  · exact h'
  · cases h'

/-- A truthy fix filter means the fix content and fix line are present. -/
theorem hasFix_fields (v : LintViolation) (h : hasFix v = true) :
    v.fix_content ≠ none ∧ v.fix_line ≠ none := by
  unfold hasFix at h
  simp only [Bool.and_eq_true] at h
  obtain ⟨⟨_, h2⟩, h3⟩ := h
  refine ⟨?_, ?_⟩
  · intro hn
    rw [hn] at h2
    exact absurd h2 (by simp [optStrTruthy])
  · intro hn
    rw [hn] at h3
    exact absurd h3 (by simp [optIntTruthy])

/-- Adding a violation to its file's group preserves the group facts: every
grouped violation satisfies `P`, lies in the file its group is keyed by,
and passed the truthiness filter. -/
theorem addToGroup_prop (P : LintViolation → Prop) :
    ∀ (acc : List (String × List LintViolation)) (p : String) (v : LintViolation),
      (∀ g ∈ acc, ∀ w ∈ g.2, P w ∧ w.file_path = g.1 ∧ hasFix w = true) →
      P v → v.file_path = p → hasFix v = true →
      ∀ g ∈ addToGroup acc p v, ∀ w ∈ g.2, P w ∧ w.file_path = g.1 ∧ hasFix w = true := by
  intro acc
  induction acc with
  | nil =>
    intro p v _ hv hvp hvf g hg w hw
    simp only [addToGroup] at hg
    rcases List.mem_cons.mp hg with hg' | hg'
    · subst hg'
      rcases List.mem_cons.mp hw with hw' | hw'
      · subst hw'; exact ⟨hv, hvp, hvf⟩
      · cases hw'
    · cases hg'
  | cons hd tl ih =>
    intro p v hacc hv hvp hvf g hg w hw
    obtain ⟨q, ws⟩ := hd
    simp only [addToGroup] at hg
    by_cases hq : q = p
    · rw [if_pos hq] at hg
      rcases List.mem_cons.mp hg with hg' | hg'
      · subst hg'
        rcases (List.mem_append.mp hw) with hw' | hw'
        · have := hacc (q, ws) (List.mem_cons_self _ _) w hw'
          exact this
        · rcases List.mem_cons.mp hw' with hw'' | hw''
          · subst hw''
            exact ⟨hv, by rw [hvp, hq], hvf⟩
          · cases hw''
      · exact hacc g (List.mem_cons_of_mem _ hg') w hw
    · rw [if_neg hq] at hg
      rcases List.mem_cons.mp hg with hg' | hg'
      · subst hg'
        exact hacc (q, ws) (List.mem_cons_self _ _) w hw
      · exact ih p v (fun g' hg' => hacc g' (List.mem_cons_of_mem _ hg')) hv hvp hvf g hg' w hw

/-- Every violation in a group produced by `groupByFile` satisfies `P`
(inherited from the input list), lies in the group's file, and passed the
truthiness filter. -/
theorem groupByFile_prop (P : LintViolation → Prop) :
    ∀ (vs : List LintViolation) (acc : List (String × List LintViolation)),
      (∀ g ∈ acc, ∀ w ∈ g.2, P w ∧ w.file_path = g.1 ∧ hasFix w = true) →
      (∀ v ∈ vs, P v) →
      ∀ g ∈ vs.foldl (fun gs v => if hasFix v then addToGroup gs v.file_path v else gs) acc,
        ∀ w ∈ g.2, P w ∧ w.file_path = g.1 ∧ hasFix w = true := by
  intro vs
  induction vs with
  | nil => intro acc hacc _ g hg w hw; exact hacc g hg w hw
  | cons v rest ih =>
    intro acc hacc hP g hg w hw
    simp only [List.foldl_cons] at hg
    by_cases hf : hasFix v = true
    · rw [if_pos hf] at hg
      exact ih (addToGroup acc v.file_path v)
        (addToGroup_prop P acc v.file_path v hacc (hP v (List.mem_cons_self _ _)) rfl hf)
        (fun u hu => hP u (List.mem_cons_of_mem _ hu)) g hg w hw
    · rw [if_neg hf] at hg
      exact ih acc hacc (fun u hu => hP u (List.mem_cons_of_mem _ hu)) g hg w hw

/-- A read failure makes the per-file fix application a no-op: the raised
`OSError` is caught by the caller before any state changed. -/
theorem apply_fixes_to_file_read_fail (c : Counts) (fs : FileSystem) (p : String)
    (vs : List LintViolation) (h : fsRead fs p = none) :
    AutoFixer.apply_fixes_to_file c fs p vs = (c, fs) := by
  unfold AutoFixer.apply_fixes_to_file
  rw [h]

/-- The per-file fix application touches no counter key and no file-system
entry other than its own path. -/
theorem apply_fixes_to_file_eq_of_read (c : Counts) (fs : FileSystem) (p : String)
    (vs : List LintViolation) (lines : List String) (c2 : Counts)
    (ol : Option (List String))
    (hr : fsRead fs p = some lines)
    (hl : AutoFixer.applyLoop p lines c (sortDescBy fixLineKey vs) = (c2, ol)) :
    AutoFixer.apply_fixes_to_file c fs p vs = AutoFixer.finishFile fs p c2 ol := by
  unfold AutoFixer.apply_fixes_to_file
  rw [hr]
  dsimp only
  rw [hl]
  cases ol <;> rfl

/-- The per-file fix application touches no counter key and no file-system
entry other than its own path. -/
theorem apply_fixes_to_file_frame (c : Counts) (fs : FileSystem) (p q : String)
    (vs : List LintViolation) (h : q ≠ p) :
    alookup (AutoFixer.apply_fixes_to_file c fs p vs).1 q = alookup c q ∧
    alookup (AutoFixer.apply_fixes_to_file c fs p vs).2 q = alookup fs q := by
  cases hr : fsRead fs p with
  | none => rw [apply_fixes_to_file_read_fail c fs p vs hr]; exact ⟨rfl, rfl⟩
  | some lines =>
    have hcounts := applyLoop_alookup_ne p q h (sortDescBy fixLineKey vs) lines c
    cases hl : AutoFixer.applyLoop p lines c (sortDescBy fixLineKey vs) with
    | mk c2 ol =>
      rw [hl] at hcounts
      rw [apply_fixes_to_file_eq_of_read c fs p vs lines c2 ol hr hl]
      cases ol with
      | none => exact ⟨hcounts, rfl⟩
      | some lines2 =>
        unfold AutoFixer.finishFile
        dsimp only
        by_cases hw : fsCanWrite fs p = true
        · rw [if_pos hw]
          exact ⟨(alookup_touch_ne c2 p q h).trans hcounts,
            alookup_fsWrite_ne fs p q lines2 h⟩
        · rw [if_neg hw]
          exact ⟨hcounts, rfl⟩

/-- A successful read reports the file's current lines. -/
theorem fsRead_some_fsLines (fs : FileSystem) (p : String) (lines : List String)
    (h : fsRead fs p = some lines) : fsLines fs p = some lines := by
  unfold fsRead at h
  unfold fsLines
  cases ha : alookup fs p with
  | none => rw [ha] at h; cases h
  | some st =>
    rw [ha] at h
    dsimp only at h
    by_cases hc : st.canRead = true
    · rw [if_pos hc] at h
      injection h with h2
      simp [← h2]
    · rw [if_neg hc] at h
      cases h

/-- When none of a file's violations carries the `add_decorator` fix type,
the per-file application leaves the file's content unchanged (the file may
be rewritten, but with the very lines that were read). -/
theorem apply_fixes_to_file_no_add (c : Counts) (fs : FileSystem) (p : String)
    (vs : List LintViolation)
    (h : ∀ w ∈ vs, w.fix_type ≠ some "add_decorator") :
    fsLines (AutoFixer.apply_fixes_to_file c fs p vs).2 p = fsLines fs p := by
  cases hr : fsRead fs p with
  | none => rw [apply_fixes_to_file_read_fail c fs p vs hr]
  | some lines =>
    rw [apply_fixes_to_file_eq_of_read c fs p vs lines c (some lines) hr
      (applyLoop_no_add p (sortDescBy fixLineKey vs) lines c
        (fun w hw => h w (mem_of_mem_sortDescBy fixLineKey w vs hw)))]
    unfold AutoFixer.finishFile
    dsimp only
    by_cases hw : fsCanWrite fs p = true
    · rw [if_pos hw]
      rw [fsLines_fsWrite_self]
      exact (fsRead_some_fsLines fs p lines hr).symm
    · rw [if_neg hw]

/-- Equal path bindings mean equal contents. -/
theorem fsLines_congr (fs fs' : FileSystem) (p : String)
    (h : alookup fs' p = alookup fs p) : fsLines fs' p = fsLines fs p := by
  unfold fsLines
  rw [h]

/-- Folding per-file fix applications over groups none of which can edit
file `p` leaves `p`'s content unchanged. -/
theorem fold_fsLines_preserved :
    ∀ (gs : List (String × List LintViolation)) (c : Counts) (fs : FileSystem) (p : String),
      (∀ g ∈ gs, g.1 = p → ∀ w ∈ g.2, w.fix_type ≠ some "add_decorator") →
      fsLines
        (gs.foldl (fun st g => AutoFixer.apply_fixes_to_file st.1 st.2 g.1 g.2) (c, fs)).2 p
        = fsLines fs p := by
  intro gs
  induction gs with
  | nil => intro c fs p _; rfl
  | cons g rest ih =>
    intro c fs p hno
    simp only [List.foldl_cons]
    cases hst : AutoFixer.apply_fixes_to_file c fs g.1 g.2 with
    | mk c' fs' =>
      have hstep : fsLines fs' p = fsLines fs p := by
        by_cases hg : g.1 = p
        · subst hg
          have := apply_fixes_to_file_no_add c fs g.1 g.2
            (hno g (List.mem_cons_self _ _) rfl)
          rw [hst] at this
          exact this
        · have := (apply_fixes_to_file_frame c fs g.1 p g.2 (fun he => hg he.symm)).2
          rw [hst] at this
          exact fsLines_congr fs fs' p this
      rw [ih c' fs' p (fun g' hg' => hno g' (List.mem_cons_of_mem _ hg'))]
      exact hstep

/-! ## Claim C6 -/

/-- C6: `apply_fixes` edits file contents only on behalf of violations whose
`fix_type` is `add_decorator` with all three fix fields non-null: a file
none of whose violations satisfies that condition ends with unchanged
content. -/
theorem C6_only_complete_fixes_edit :
    ∀ (counts : Counts) (fs : FileSystem) (violations : List LintViolation) (p : String),
      (∀ v ∈ violations, v.file_path = p →
        ¬(v.fix_type = some "add_decorator" ∧ v.fix_content ≠ none ∧ v.fix_line ≠ none)) →
      fsLines (AutoFixer.apply_fixes counts fs violations).2 p = fsLines fs p := by
  intro counts fs violations p hp
  unfold AutoFixer.apply_fixes
  apply fold_fsLines_preserved
  intro g hg hgp w hw
  have hprop := groupByFile_prop (fun v => v ∈ violations) violations []
    (fun g' hg' => absurd hg' (List.not_mem_nil g'))
    (fun v hv => hv) g hg w hw
  obtain ⟨hwin, hwfp, hwfix⟩ := hprop
  obtain ⟨hcont, hline⟩ := hasFix_fields w hwfix
  intro htype
  exact hp w hwin (hwfp.trans hgp) ⟨htype, hcont, hline⟩

/-- C6 witness: the theorem applied to the concrete state; the file's
content is untouched. -/
theorem C6_only_complete_fixes_edit_witness :
    fsLines (AutoFixer.apply_fixes [] witnessFsC6 [witnessViolationC6]).2 "src/m.py" =
      fsLines witnessFsC6 "src/m.py" :=
  C6_only_complete_fixes_edit [] witnessFsC6 [witnessViolationC6] "src/m.py"
    (by
      intro v hv _
      rcases List.mem_cons.mp hv with hv' | hv'
      · subst hv'
        intro hbad
        exact hbad.2.2 rfl
      · cases hv')

/-- A fix whose 1-based line number lies beyond the end of the file edits
nothing: the bounds guard fails and the lines are returned unchanged. -/
theorem apply_add_decorator_beyond (lines : List String) (v : LintViolation)
    (h : (lines.length : Int) ≤ v.line_number - 1) :
    AutoFixer.apply_add_decorator lines v = some lines := by
  unfold AutoFixer.apply_add_decorator
  rw [if_neg (by omega)]

/-- Reading a present, readable file returns its lines. -/
theorem fsRead_of_canRead (fs : FileSystem) (p : String) (st : FileState)
    (ha : alookup fs p = some st) (hc : st.canRead = true) :
    fsRead fs p = some st.lines := by
  unfold fsRead
  rw [ha]
  dsimp only
  rw [if_pos hc]

/-- A present file's writability is its flag. -/
theorem fsCanWrite_of (fs : FileSystem) (p : String) (st : FileState)
    (ha : alookup fs p = some st) : fsCanWrite fs p = st.canWrite := by
  unfold fsCanWrite
  rw [ha]

/-- The per-file fix application never decreases a counter. -/
theorem apply_fixes_to_file_get_le (c : Counts) (fs : FileSystem) (p q : String)
    (vs : List LintViolation) :
    Counts.get c q ≤ Counts.get (AutoFixer.apply_fixes_to_file c fs p vs).1 q := by
  cases hr : fsRead fs p with
  | none =>
    rw [apply_fixes_to_file_read_fail c fs p vs hr]
  | some lines =>
    have hle := applyLoop_get_le p q (sortDescBy fixLineKey vs) lines c
    cases hl : AutoFixer.applyLoop p lines c (sortDescBy fixLineKey vs) with
    | mk c2 ol =>
      rw [hl] at hle
      rw [apply_fixes_to_file_eq_of_read c fs p vs lines c2 ol hr hl]
      cases ol with
      | none => exact hle
      | some lines2 =>
        unfold AutoFixer.finishFile
        dsimp only
        by_cases hw : fsCanWrite fs p = true
        · rw [if_pos hw]
          dsimp only
          rw [get_touch]
          exact hle
        · rw [if_neg hw]
          exact hle

/-- Folding per-file fix applications never decreases a counter. -/
theorem fold_get_le :
    ∀ (gs : List (String × List LintViolation)) (c : Counts) (fs : FileSystem) (q : String),
      Counts.get c q ≤
        Counts.get
          (gs.foldl (fun st g => AutoFixer.apply_fixes_to_file st.1 st.2 g.1 g.2) (c, fs)).1 q := by
  intro gs
  induction gs with
  | nil => intro c fs q; exact Nat.le_refl _
  | cons g rest ih =>
    intro c fs q
    simp only [List.foldl_cons]
    cases hst : AutoFixer.apply_fixes_to_file c fs g.1 g.2 with
    | mk c' fs' =>
      have h1 := apply_fixes_to_file_get_le c fs g.1 q g.2
      rw [hst] at h1
      exact Nat.le_trans h1 (ih c' fs' q)

/-- `apply_fixes` never decreases a counter: the returned map is cumulative
instance state. -/
theorem apply_fixes_get_le (c : Counts) (fs : FileSystem)
    (violations : List LintViolation) (q : String) :
    Counts.get c q ≤ Counts.get (AutoFixer.apply_fixes c fs violations).1 q :=
  fold_get_le (groupByFile violations) c fs q

/-! ## Claim C9 -/

/-- C9: the returned count map counts processed `add_decorator` violations,
not lines actually inserted.  First part: a violation whose `line_number`
exceeds the file's number of lines still increments that file's count while
leaving the file's lines unchanged.  Second part: `applied_fixes` is
instance state, so the counts returned by a second `apply_fixes` call on the
same `AutoFixer` include (are at least) those accumulated by the first
call. -/
theorem C9_counts_processed_not_inserted :
    (∀ (c : Counts) (fs : FileSystem) (p : String) (st : FileState) (v : LintViolation),
      alookup fs p = some st → st.canRead = true → st.canWrite = true →
      v.file_path = p → v.fix_type = some "add_decorator" → hasFix v = true →
      (st.lines.length : Int) < v.line_number →
      Counts.get (AutoFixer.apply_fixes c fs [v]).1 p = Counts.get c p + 1 ∧
      fsLines (AutoFixer.apply_fixes c fs [v]).2 p = some st.lines) ∧
    (∀ (c : Counts) (fs : FileSystem) (vs : List LintViolation)
       (fs2 : FileSystem) (vs2 : List LintViolation) (p : String),
      Counts.get (AutoFixer.apply_fixes c fs vs).1 p ≤
        Counts.get
          (AutoFixer.apply_fixes (AutoFixer.apply_fixes c fs vs).1 fs2 vs2).1 p) := by
  constructor
  · intro c fs p st v ha hcr hcw hfp htype hfix hlen
    have hread : fsRead fs p = some st.lines := fsRead_of_canRead fs p st ha hcr
    have hwrite : fsCanWrite fs p = true := by rw [fsCanWrite_of fs p st ha, hcw]
    have hgroup : groupByFile [v] = [(p, [v])] := by
      simp [groupByFile, hfix, addToGroup, hfp]
    have hloop : AutoFixer.applyLoop p st.lines c (sortDescBy fixLineKey [v]) =
        (Counts.bump c p, some st.lines) := by
      show AutoFixer.applyLoop p st.lines c [v] = _
      simp only [AutoFixer.applyLoop]
      rw [if_pos htype, apply_add_decorator_beyond st.lines v (by omega)]
    have hfile : AutoFixer.apply_fixes c fs [v] =
        (Counts.touch (Counts.bump c p) p, fsWrite fs p st.lines) := by
      unfold AutoFixer.apply_fixes
      rw [hgroup]
      simp only [List.foldl_cons, List.foldl_nil]
      rw [apply_fixes_to_file_eq_of_read c fs p [v] st.lines (Counts.bump c p)
        (some st.lines) hread hloop]
      unfold AutoFixer.finishFile
      dsimp only
      rw [if_pos hwrite]
    rw [hfile]
    constructor
    · dsimp only
      rw [get_touch, get_bump_self]
    · dsimp only
      rw [fsLines_fsWrite_self]
  · intro c fs vs fs2 vs2 p
    exact apply_fixes_get_le (AutoFixer.apply_fixes c fs vs).1 fs2 vs2 p

/-- C9 witness: the theorem's first part applied at the concrete state —
the count is incremented though the file is unchanged. -/
theorem C9_counts_processed_not_inserted_witness :
    Counts.get (AutoFixer.apply_fixes [] witnessFsC9 [witnessViolationC9]).1 "a.py" =
      Counts.get ([] : Counts) "a.py" + 1 ∧
    fsLines (AutoFixer.apply_fixes [] witnessFsC9 [witnessViolationC9]).2 "a.py" =
      some ["x = 1\n"] :=
  C9_counts_processed_not_inserted.1 [] witnessFsC9 "a.py"
    { lines := ["x = 1\n"] } witnessViolationC9 rfl rfl rfl rfl rfl (by decide) (by decide)

/-! ## Claim C3 -/

/-- C3 counterexample: the claim says an I/O error while reading **or
writing** a file leaves that file with no count in the returned map.  For a
write error this is false: the counter was already incremented during the
loop, so the failing file `b.py` appears in the returned map with count 1
even though its content is unchanged (its fixes were dropped), while `a.py`
is fixed normally. -/
theorem C3_write_error_still_counted :
    alookup (AutoFixer.apply_fixes [] witnessFsC3
      [witnessViolationC3a, witnessViolationC3b]).1 "b.py" = some 1 ∧
    fsLines (AutoFixer.apply_fixes [] witnessFsC3
      [witnessViolationC3a, witnessViolationC3b]).2 "b.py" = some witnessLinesC3 ∧
    fsLines (AutoFixer.apply_fixes [] witnessFsC3
      [witnessViolationC3a, witnessViolationC3b]).2 "a.py" =
      some ["@pytest.mark.unit\n", "def f():\n", "    pass\n"] := by
  refine ⟨?_, ?_, ?_⟩ <;> decide

/-- Dropping a key commutes with adding a violation keyed elsewhere. -/
theorem dropKey_addToGroup_ne (p q : String) (v : LintViolation) (hq : q ≠ p) :
    ∀ acc : List (String × List LintViolation),
      dropKey p (addToGroup acc q v) = addToGroup (dropKey p acc) q v := by
  intro acc
  induction acc with
  | nil =>
    simp only [addToGroup, dropKey, if_neg hq]
  | cons hd tl ih =>
    obtain ⟨k, ws⟩ := hd
    by_cases hk : k = q
    · have hkp : k ≠ p := hk ▸ hq
      simp only [addToGroup, if_pos hk, dropKey, if_neg hkp]
    · simp only [addToGroup, if_neg hk, dropKey]
      by_cases hkp : k = p
      · rw [if_pos hkp, if_pos hkp]
        exact ih
      · rw [if_neg hkp, if_neg hkp]
        simp only [addToGroup, if_neg hk]
        rw [ih]

/-- Dropping a key absorbs an addition keyed by it. -/
theorem dropKey_addToGroup_self (p : String) (v : LintViolation) :
    ∀ acc : List (String × List LintViolation),
      dropKey p (addToGroup acc p v) = dropKey p acc := by
  intro acc
  induction acc with
  | nil =>
    simp only [addToGroup, dropKey]
    rw [if_true]
  | cons hd tl ih =>
    obtain ⟨k, ws⟩ := hd
    by_cases hk : k = p
    · simp only [addToGroup, if_pos hk, dropKey, if_pos hk]
    · simp only [addToGroup, if_neg hk, dropKey, if_neg hk]
      rw [ih]

/-- Grouping the violations of the other files yields exactly the groups of
all violations with file `p`'s group removed. -/
theorem groupFold_dropFile (p : String) :
    ∀ (vs : List LintViolation) (acc : List (String × List LintViolation)),
      (dropFile p vs).foldl
          (fun gs v => if hasFix v then addToGroup gs v.file_path v else gs)
          (dropKey p acc) =
        dropKey p (vs.foldl
          (fun gs v => if hasFix v then addToGroup gs v.file_path v else gs) acc) := by
  intro vs
  induction vs with
  | nil => intro acc; rfl
  | cons v rest ih =>
    intro acc
    by_cases hpv : v.file_path = p
    · simp only [dropFile, if_pos hpv, List.foldl_cons]
      have hacc : dropKey p acc =
          dropKey p (if hasFix v then addToGroup acc v.file_path v else acc) := by
        by_cases hf : hasFix v = true
        · rw [if_pos hf, show addToGroup acc v.file_path v = addToGroup acc p v from by
            rw [hpv], dropKey_addToGroup_self p v acc]
        · rw [if_neg hf]
      rw [hacc, ih (if hasFix v then addToGroup acc v.file_path v else acc)]
    · simp only [dropFile, if_neg hpv, List.foldl_cons]
      have hstep : (if hasFix v then addToGroup (dropKey p acc) v.file_path v
            else dropKey p acc) =
          dropKey p (if hasFix v then addToGroup acc v.file_path v else acc) := by
        by_cases hf : hasFix v = true
        · rw [if_pos hf, if_pos hf, dropKey_addToGroup_ne p v.file_path v hpv acc]
        · rw [if_neg hf, if_neg hf]
      rw [hstep, ih (if hasFix v then addToGroup acc v.file_path v else acc)]

/-- Grouping commutes with dropping one file's violations. -/
theorem groupByFile_dropFile (p : String) (vs : List LintViolation) :
    groupByFile (dropFile p vs) = dropKey p (groupByFile vs) :=
  groupFold_dropFile p vs []

/-- Everything left after dropping a key came from the original groups and
is keyed away from the dropped key. -/
theorem mem_dropKey (p : String) :
    ∀ (gs : List (String × List LintViolation)) (g : String × List LintViolation),
      g ∈ dropKey p gs → g.1 ≠ p := by
  intro gs
  induction gs with
  | nil => intro g hg; cases hg
  | cons hd tl ih =>
    obtain ⟨k, ws⟩ := hd
    intro g hg
    simp only [dropKey] at hg
    by_cases hk : k = p
    · rw [if_pos hk] at hg
      exact ih g hg
    · rw [if_neg hk] at hg
      rcases List.mem_cons.mp hg with hg2 | hg2
      · rw [hg2]
        exact hk
      · exact ih g hg2

/-- When file `p` cannot be read, its group acts as the identity wherever it
sits in the fold, so folding all groups equals folding the other files'
groups: the read failure is caught and every other file is processed exactly
as if `p`'s violations were absent. -/
theorem fold_skip_read_fail (p : String) :
    ∀ (gs : List (String × List LintViolation)) (c : Counts) (fs : FileSystem),
      fsRead fs p = none →
      gs.foldl (fun st g => AutoFixer.apply_fixes_to_file st.1 st.2 g.1 g.2) (c, fs) =
        (dropKey p gs).foldl
          (fun st g => AutoFixer.apply_fixes_to_file st.1 st.2 g.1 g.2) (c, fs) := by
  intro gs
  induction gs with
  | nil => intro c fs _; rfl
  | cons g rest ih =>
    intro c fs hrf
    obtain ⟨k, ws⟩ := g
    simp only [dropKey, List.foldl_cons]
    by_cases hg : k = p
    · rw [if_pos hg]
      rw [show AutoFixer.apply_fixes_to_file c fs k ws = (c, fs) from by
        rw [hg]; exact apply_fixes_to_file_read_fail c fs p ws hrf]
      exact ih c fs hrf
    · rw [if_neg hg]
      simp only [List.foldl_cons]
      cases hst : AutoFixer.apply_fixes_to_file c fs k ws with
      | mk c2 fs2 =>
        have hal := (apply_fixes_to_file_frame c fs k p ws (fun he => hg he.symm)).2
        rw [hst] at hal
        have hrf2 : fsRead fs2 p = none := by
          unfold fsRead at hrf ⊢
          rw [hal]
          exact hrf
        exact ih c2 fs2 hrf2

/-- Folding groups all keyed away from `p` leaves `p`'s counter binding and
file-system entry untouched. -/
theorem fold_frame_all_ne (p : String) :
    ∀ (gs : List (String × List LintViolation)) (c : Counts) (fs : FileSystem),
      (∀ g ∈ gs, g.1 ≠ p) →
      alookup (gs.foldl
        (fun st g => AutoFixer.apply_fixes_to_file st.1 st.2 g.1 g.2) (c, fs)).1 p =
          alookup c p ∧
      alookup (gs.foldl
        (fun st g => AutoFixer.apply_fixes_to_file st.1 st.2 g.1 g.2) (c, fs)).2 p =
          alookup fs p := by
  intro gs
  induction gs with
  | nil => intro c fs _; exact ⟨rfl, rfl⟩
  | cons g rest ih =>
    intro c fs hne
    simp only [List.foldl_cons]
    cases hst : AutoFixer.apply_fixes_to_file c fs g.1 g.2 with
    | mk c2 fs2 =>
      have hfr := apply_fixes_to_file_frame c fs g.1 p g.2
        (fun he => hne g (List.mem_cons_self _ _) he.symm)
      rw [hst] at hfr
      obtain ⟨h1, h2⟩ := hfr
      obtain ⟨h3, h4⟩ := ih c2 fs2 (fun g2 hg2 => hne g2 (List.mem_cons_of_mem _ hg2))
      exact ⟨h3.trans h1, h4.trans h2⟩

/-- C3 (amended): an I/O error while **reading** a file during
`apply_fixes` is caught and isolated — the whole run equals the run on the
violations of the other files alone, the failing file contributes no count
to the returned map, and its file-system entry is untouched.  (For a
**write** error the error is still caught and other files are unaffected,
but the failing file's already-incremented count remains in the returned
map — see the counterexample.) -/
theorem C3_read_error_isolated :
    ∀ (c : Counts) (fs : FileSystem) (violations : List LintViolation) (p : String),
      fsRead fs p = none →
      AutoFixer.apply_fixes c fs violations =
        AutoFixer.apply_fixes c fs (dropFile p violations) ∧
      alookup (AutoFixer.apply_fixes c fs violations).1 p = alookup c p ∧
      alookup (AutoFixer.apply_fixes c fs violations).2 p = alookup fs p := by
  intro c fs violations p hrf
  have heq : AutoFixer.apply_fixes c fs violations =
      AutoFixer.apply_fixes c fs (dropFile p violations) := by
    unfold AutoFixer.apply_fixes
    rw [groupByFile_dropFile p violations]
    exact fold_skip_read_fail p (groupByFile violations) c fs hrf
  refine ⟨heq, ?_, ?_⟩ <;>
  · rw [heq]
    unfold AutoFixer.apply_fixes
    rw [groupByFile_dropFile p violations]
    have hframe := fold_frame_all_ne p (dropKey p (groupByFile violations)) c fs
      (fun g hg => mem_dropKey p (groupByFile violations) g hg)
    first
    | exact hframe.1
    | exact hframe.2

/-- C3 witness: the amended theorem applied to a concrete file system where
`b.py` is unreadable, with one fixable violation on each file. -/
theorem C3_read_error_isolated_witness :
    AutoFixer.apply_fixes [] witnessFsC3read [witnessViolationC3a, witnessViolationC3b] =
      AutoFixer.apply_fixes [] witnessFsC3read
        (dropFile "b.py" [witnessViolationC3a, witnessViolationC3b]) ∧
    alookup (AutoFixer.apply_fixes [] witnessFsC3read
      [witnessViolationC3a, witnessViolationC3b]).1 "b.py" = alookup ([] : Counts) "b.py" ∧
    alookup (AutoFixer.apply_fixes [] witnessFsC3read
      [witnessViolationC3a, witnessViolationC3b]).2 "b.py" = alookup witnessFsC3read "b.py" :=
  C3_read_error_isolated [] witnessFsC3read [witnessViolationC3a, witnessViolationC3b]
    "b.py" (by decide)

/-! ## Claim C4 -/

/-- Stable descending insertion preserves weak descending sortedness. -/
theorem insertDescBy_sorted (key : LintViolation → Int) (v : LintViolation) :
    ∀ l : List LintViolation,
      List.Pairwise (fun a b => key b ≤ key a) l →
      List.Pairwise (fun a b => key b ≤ key a) (insertDescBy key v l) := by
  intro l
  induction l with
  | nil =>
    intro _
    exact List.Pairwise.cons (fun b hb => absurd hb (List.not_mem_nil b)) List.Pairwise.nil
  | cons w ws ih =>
    intro h
    obtain ⟨hhead, htail⟩ := List.pairwise_cons.mp h
    unfold insertDescBy
    by_cases hk : key v ≤ key w
    · rw [if_pos hk]
      rw [List.pairwise_cons]
      refine ⟨?_, ih htail⟩
      intro u hu
      rcases mem_insertDescBy key v u ws hu with h1 | h1
      · rw [h1]; exact hk
      · exact hhead u h1
    · rw [if_neg hk]
      rw [List.pairwise_cons]
      refine ⟨?_, h⟩
      intro u hu
      rcases List.mem_cons.mp hu with h1 | h1
      · rw [h1]; omega
      · exact le_trans (hhead u h1) (by omega)

/-- The stable descending sort produces a weakly descending list. -/
theorem sortDescBy_sorted (key : LintViolation → Int) (vs : List LintViolation) :
    List.Pairwise (fun a b => key b ≤ key a) (sortDescBy key vs) := by
  unfold sortDescBy
  have haux : ∀ (l acc : List LintViolation),
      List.Pairwise (fun a b => key b ≤ key a) acc →
      List.Pairwise (fun a b => key b ≤ key a)
        (l.foldl (fun acc v => insertDescBy key v acc) acc) := by
    intro l
    induction l with
    | nil => intro acc h; exact h
    | cons v rest ih =>
      intro acc h
      exact ih (insertDescBy key v acc) (insertDescBy_sorted key v acc h)
  exact haux vs [] List.Pairwise.nil

/-- Stable descending insertion is a permutation of consing. -/
theorem insertDescBy_perm (key : LintViolation → Int) (v : LintViolation) :
    ∀ l : List LintViolation, (insertDescBy key v l).Perm (v :: l) := by
  intro l
  induction l with
  | nil => exact List.Perm.refl _
  | cons w ws ih =>
    unfold insertDescBy
    by_cases hk : key v ≤ key w
    · rw [if_pos hk]
      exact (List.Perm.cons w ih).trans (List.Perm.swap v w ws)
    · rw [if_neg hk]

/-- The stable descending sort permutes its input. -/
theorem sortDescBy_perm (key : LintViolation → Int) (vs : List LintViolation) :
    (sortDescBy key vs).Perm vs := by
  unfold sortDescBy
  have haux : ∀ (l acc : List LintViolation),
      (l.foldl (fun acc v => insertDescBy key v acc) acc).Perm (l ++ acc) := by
    intro l
    induction l with
    | nil => intro acc; exact List.Perm.refl acc
    | cons v rest ih =>
      intro acc
      simp only [List.foldl_cons]
      refine (ih (insertDescBy key v acc)).trans ?_
      refine (List.Perm.append_left rest (insertDescBy_perm key v acc)).trans ?_
      exact List.perm_middle
  simpa using haux vs []

/-- Two stable descending insertions agree when their keys order the new
element against the list the same way. -/
theorem insertDescBy_congr_key (key1 key2 : LintViolation → Int) (v : LintViolation) :
    ∀ l : List LintViolation,
      (∀ w ∈ l, (key1 v ≤ key1 w ↔ key2 v ≤ key2 w)) →
      insertDescBy key1 v l = insertDescBy key2 v l := by
  intro l
  induction l with
  | nil => intro _; rfl
  | cons w ws ih =>
    intro h
    unfold insertDescBy
    by_cases hk : key1 v ≤ key1 w
    · rw [if_pos hk, if_pos ((h w (List.mem_cons_self _ _)).mp hk)]
      rw [ih (fun u hu => h u (List.mem_cons_of_mem _ hu))]
    · rw [if_neg hk, if_neg (fun hc => hk ((h w (List.mem_cons_self _ _)).mpr hc))]

/-- Two stable descending sorts agree whenever their keys induce the same
order on the sorted elements. -/
theorem sortDescBy_congr_key (key1 key2 : LintViolation → Int) :
    ∀ (vs acc : List LintViolation),
      (∀ v w : LintViolation, (v ∈ vs ∨ v ∈ acc) → (w ∈ vs ∨ w ∈ acc) →
        (key1 v ≤ key1 w ↔ key2 v ≤ key2 w)) →
      vs.foldl (fun acc v => insertDescBy key1 v acc) acc =
        vs.foldl (fun acc v => insertDescBy key2 v acc) acc := by
  intro vs
  induction vs with
  | nil => intro acc _; rfl
  | cons v rest ih =>
    intro acc h
    simp only [List.foldl_cons]
    rw [insertDescBy_congr_key key1 key2 v acc
      (fun w hw => h v w (Or.inl (List.mem_cons_self _ _)) (Or.inr hw))]
    refine ih (insertDescBy key2 v acc) ?_
    intro a b ha hb
    apply h a b
    · rcases ha with ha1 | ha1
      · exact Or.inl (List.mem_cons_of_mem _ ha1)
      · rcases mem_insertDescBy key2 v a acc ha1 with h1 | h1
        · exact Or.inl (h1 ▸ List.mem_cons_self _ _)
        · exact Or.inr h1
    · rcases hb with hb1 | hb1
      · exact Or.inl (List.mem_cons_of_mem _ hb1)
      · rcases mem_insertDescBy key2 v b acc hb1 with h1 | h1
        · exact Or.inl (h1 ▸ List.mem_cons_self _ _)
        · exact Or.inr h1

/-- A weakly descending list of well-formed fixes with pairwise disjoint
spans is a `FixChainOK` chain: on such a list the weak key order is in fact
strict and every later span lies strictly above the current `fix_line`. -/
theorem chain_of_sorted_disjoint (lines : List String) :
    ∀ l : List LintViolation,
      (∀ v ∈ l, v.fix_type = some "add_decorator" ∧
        ∃ f : Int, v.fix_line = some f ∧ 1 ≤ f ∧ f ≤ v.line_number ∧
          v.line_number ≤ (lines.length : Int) ∧
          (originalInsertIdx lines v : Int) = f - 1) →
      List.Pairwise (fun a b => fixLineKey b ≤ fixLineKey a) l →
      List.Pairwise (fun v w =>
        w.line_number < fixLineKey v ∨ v.line_number < fixLineKey w) l →
      FixChainOK lines l := by
  intro l
  induction l with
  | nil => intro _ _ _; trivial
  | cons v rest ih =>
    intro helem hs hd
    obtain ⟨hs1, hs2⟩ := List.pairwise_cons.mp hs
    obtain ⟨hd1, hd2⟩ := List.pairwise_cons.mp hd
    obtain ⟨htype, f, hfl, hf1, hfle, hln, hidx⟩ := helem v (List.mem_cons_self _ _)
    refine ⟨⟨htype, f, hfl, hf1, hfle, hln, hidx⟩, ?_,
      ih (fun u hu => helem u (List.mem_cons_of_mem _ hu)) hs2 hd2⟩
    intro w hw
    obtain ⟨_, fw, hflw, hfw1, hfwle, _, _⟩ := helem w (List.mem_cons_of_mem _ hw)
    have hkv : fixLineKey v = f := by simp [fixLineKey, hfl]
    have hkw : fixLineKey w = fw := by simp [fixLineKey, hflw]
    have hle := hs1 w hw
    rw [hfl]
    simp only [Option.getD_some]
    rcases hd1 w hw with hlt | hlt
    · omega
    · exfalso
      omega

/-- Sorting a well-formed fix set — however its violations were ordered —
by `fix_line` descending yields a well-formed chain: the code's sort is
exactly what restores the descending processing order. -/
theorem fixSetOK_sorted_chain (lines : List String) (vs : List LintViolation)
    (h : FixSetOK lines vs) : FixChainOK lines (sortDescBy fixLineKey vs) := by
  obtain ⟨helem, hdisj⟩ := h
  apply chain_of_sorted_disjoint lines
  · intro w hw
    exact helem w (mem_of_mem_sortDescBy fixLineKey w vs hw)
  · exact sortDescBy_sorted fixLineKey vs
  · exact (List.Perm.pairwise_iff (fun hab => Or.symm hab)
      (sortDescBy_perm fixLineKey vs)).mpr hdisj

/-- Defaulted indexing into an append stays in the left part when in
range. -/
theorem getD_append_left {α : Type} :
    ∀ (l1 l2 : List α) (j : Nat) (d : α), j < l1.length →
      (l1 ++ l2).getD j d = l1.getD j d
  | [], _, j, _, h => absurd h (by simp)
  | _ :: _, _, 0, _, _ => rfl
  | _ :: l1, l2, j + 1, d, h => getD_append_left l1 l2 j d (Nat.lt_of_succ_lt_succ h)

/-- Defaulted indexing into a prefix agrees with the full list below the
cut. -/
theorem getD_take {α : Type} :
    ∀ (l : List α) (k j : Nat) (d : α), j < k → (l.take k).getD j d = l.getD j d
  | [], _, j, d, _ => by simp
  | _ :: _, 0, j, _, h => absurd h (Nat.not_lt_zero j)
  | _ :: _, _ + 1, 0, _, _ => rfl
  | _ :: l, k + 1, j + 1, d, h => getD_take l k j d (Nat.lt_of_succ_lt_succ h)

/-- Inserting an element at index `k` leaves positions below `k`
unchanged. -/
theorem getD_insert_lt {α : Type} (l : List α) (k j : Nat) (x d : α)
    (hk : k ≤ l.length) (hj : j < k) :
    (l.take k ++ x :: l.drop k).getD j d = l.getD j d := by
  rw [getD_append_left _ _ _ _ (by rw [List.length_take]; omega)]
  exact getD_take l k j d hj

/-- The decorator walk only inspects positions below its start. -/
theorem walkUpN_congr (a b : List String) :
    ∀ i : Nat, (∀ j, j < i → a.getD j "" = b.getD j "") →
      AutoFixer.walkUpN a i = AutoFixer.walkUpN b i
  | 0, _ => rfl
  | i + 1, h => by
    unfold AutoFixer.walkUpN
    rw [h i (Nat.lt_succ_self i)]
    by_cases hd : isDecoratorLine (b.getD i "") = true
    · rw [if_pos hd, if_pos hd]
      exact walkUpN_congr a b i (fun j hj => h j (Nat.lt_succ_of_lt hj))
    · rw [if_neg hd, if_neg hd]

/-- The fix loop on a well-formed fix list (already in processing order)
performs exactly one counter bump per violation and inserts every decorator
at the position determined by the original, pre-fix line numbers — later
insertions are below earlier ones, so no insertion shifts the line numbers
a later fix consumes. -/
theorem applyLoop_spec (path : String) (lines0 : List String) :
    ∀ (vs : List LintViolation) (cur : List String) (counts : Counts),
      FixChainOK lines0 vs →
      lines0.length ≤ cur.length →
      (∀ w ∈ vs, ∀ j : Nat, (j : Int) < w.line_number →
        cur.getD j "" = lines0.getD j "") →
      AutoFixer.applyLoop path cur counts vs =
        (Counts.bumpN counts path vs.length,
         some (vs.foldl (fun ls v =>
           ls.take (originalInsertIdx lines0 v) ++
             specDecoratorLine lines0 v :: ls.drop (originalInsertIdx lines0 v)) cur)) := by
  intro vs
  induction vs with
  | nil => intro cur counts _ _ _; rfl
  | cons v rest ih =>
    intro cur counts hchain hlen hagree
    obtain ⟨⟨htype, f, hfl, hf1, hfle, hln, hidx⟩, hlt, hrest⟩ := hchain
    have hlpos : 1 ≤ v.line_number := le_trans hf1 hfle
    have hi0 : (0 : Int) ≤ v.line_number - 1 := by omega
    have hitoNat_lt : (v.line_number - 1).toNat < cur.length := by omega
    have hk_le : originalInsertIdx lines0 v ≤ (v.line_number - 1).toNat :=
      walkUpN_le lines0 _
    have hk_len : originalInsertIdx lines0 v ≤ cur.length := by omega
    have hget : cur.getD (v.line_number - 1).toNat "" =
        lines0.getD (v.line_number - 1).toNat "" := by
      apply hagree v (List.mem_cons_self _ _)
      omega
    have hwalk : AutoFixer.walkUpN cur (v.line_number - 1).toNat =
        originalInsertIdx lines0 v := by
      unfold originalInsertIdx
      apply walkUpN_congr
      intro j hj
      apply hagree v (List.mem_cons_self _ _)
      omega
    have happly : AutoFixer.apply_add_decorator cur v =
        some (cur.take (originalInsertIdx lines0 v) ++
          specDecoratorLine lines0 v :: cur.drop (originalInsertIdx lines0 v)) := by
      unfold AutoFixer.apply_add_decorator
      rw [if_pos (show v.line_number - 1 < (cur.length : Int) by omega)]
      rw [pyGet_nonneg_lt cur (v.line_number - 1) "" hi0 hitoNat_lt]
      dsimp only
      rw [walkUp_toNat cur (v.line_number - 1) hi0, hwalk]
      rw [pyInsert_nonneg cur _ _ (by positivity) (by omega)]
      rw [show ((originalInsertIdx lines0 v : Nat) : Int).toNat =
        originalInsertIdx lines0 v from by omega]
      rw [hget]
      rfl
    simp only [AutoFixer.applyLoop]
    rw [if_pos htype, happly]
    dsimp only
    have hlen2 : lines0.length ≤
        (cur.take (originalInsertIdx lines0 v) ++
          specDecoratorLine lines0 v :: cur.drop (originalInsertIdx lines0 v)).length := by
      simp only [List.length_append, List.length_take, List.length_cons,
        List.length_drop]
      omega
    have hagree2 : ∀ w ∈ rest, ∀ j : Nat, (j : Int) < w.line_number →
        (cur.take (originalInsertIdx lines0 v) ++
          specDecoratorLine lines0 v :: cur.drop (originalInsertIdx lines0 v)).getD j "" =
          lines0.getD j "" := by
      intro w hw j hj
      have hwlt := hlt w hw
      rw [hfl] at hwlt
      simp only [Option.getD_some] at hwlt
      have hjk : j < originalInsertIdx lines0 v := by omega
      rw [getD_insert_lt cur (originalInsertIdx lines0 v) j _ "" hk_len hjk]
      exact hagree w (List.mem_cons_of_mem _ hw) j hj
    rw [ih (cur.take (originalInsertIdx lines0 v) ++
      specDecoratorLine lines0 v :: cur.drop (originalInsertIdx lines0 v))
      (Counts.bump counts path) hrest hlen2 hagree2]
    rfl

/-- C4 counterexample: the loop sorts by `fix_line` but inserts at positions
derived from `line_number`.  When the two orders disagree — here the
violation on line 1 carries the larger `fix_line` — the earlier insertion
shifts the lines the later fix consumes, and the second decorator lands
inside the body of the first function instead of above `def b`: the claim's
"each violation's decorator is inserted at the position determined by its
original, pre-fix line numbers" fails on this input. -/
theorem C4_sort_key_mismatch :
    fsLines (AutoFixer.apply_fixes_to_file [] witnessFsC4 "a.py"
        [witnessViolationC4hi, witnessViolationC4lo]).2 "a.py" ≠
      some (specApplyAll witnessLinesC4 [witnessViolationC4hi, witnessViolationC4lo]) ∧
    fsLines (AutoFixer.apply_fixes_to_file [] witnessFsC4 "a.py"
        [witnessViolationC4hi, witnessViolationC4lo]).2 "a.py" =
      some ["@x\n", "def a():\n", "    @y\n", "    pass\n", "def b():\n", "    pass\n"] ∧
    specApplyAll witnessLinesC4 [witnessViolationC4hi, witnessViolationC4lo] =
      ["@x\n", "def a():\n", "    pass\n", "@y\n", "def b():\n", "    pass\n"] := by
  refine ⟨?_, ?_, ?_⟩ <;> decide

/-- C4 (amended): for a readable, writable file whose fix list is
well-formed in the engine's sense — each violation's `fix_line` marks the
walked-back insertion point of its own `line_number` and the violations'
`[fix_line, line_number]` spans are pairwise disjoint — and in **any**
input order (in particular the engine's ascending per-file order),
`_apply_fixes_to_file` sorts the fixes by `fix_line` descending, which on
such a list coincides with descending target insertion line; applied in
that order, no insertion shifts the line numbers a later fix consumes, and
the rewritten file is exactly the specification's simultaneous insertion
at pre-fix positions (`specApplyAll`), with one count bump per fix.  For
fix descriptors violating this well-formedness, the `fix_line` sort order
can disagree with the insertion-point order and the claim fails — see the
counterexample. -/
theorem C4_descending_fix_application :
    ∀ (counts : Counts) (fs : FileSystem) (p : String) (st : FileState)
      (vs : List LintViolation),
      alookup fs p = some st → st.canRead = true → st.canWrite = true →
      FixSetOK st.lines vs →
      AutoFixer.apply_fixes_to_file counts fs p vs =
        (Counts.touch (Counts.bumpN counts p vs.length) p,
         fsWrite fs p (specApplyAll st.lines vs)) := by
  intro counts fs p st vs ha hcr hcw hset
  have hchain : FixChainOK st.lines (sortDescBy fixLineKey vs) :=
    fixSetOK_sorted_chain st.lines vs hset
  have hread : fsRead fs p = some st.lines := fsRead_of_canRead fs p st ha hcr
  have hwrite : fsCanWrite fs p = true := by rw [fsCanWrite_of fs p st ha, hcw]
  have hlen : (sortDescBy fixLineKey vs).length = vs.length :=
    (sortDescBy_perm fixLineKey vs).length_eq
  have hkeys : sortDescBy (fun v => (originalInsertIdx st.lines v : Int)) vs =
      sortDescBy fixLineKey vs := by
    unfold sortDescBy
    apply sortDescBy_congr_key
    intro a b haz hbz
    have hma : a ∈ vs := by
      rcases haz with h1 | h1
      · exact h1
      · cases h1
    have hmb : b ∈ vs := by
      rcases hbz with h1 | h1
      · exact h1
      · cases h1
    obtain ⟨_, fa, hfla, _, _, _, hida⟩ := hset.1 a hma
    obtain ⟨_, fb, hflb, _, _, _, hidb⟩ := hset.1 b hmb
    have hka : fixLineKey a = fa := by simp [fixLineKey, hfla]
    have hkb : fixLineKey b = fb := by simp [fixLineKey, hflb]
    constructor
    · intro hle
      omega
    · intro hle
      omega
  have hspec : specApplyAll st.lines vs =
      (sortDescBy fixLineKey vs).foldl (fun ls v =>
        ls.take (originalInsertIdx st.lines v) ++
          specDecoratorLine st.lines v :: ls.drop (originalInsertIdx st.lines v))
        st.lines := by
    unfold specApplyAll
    rw [hkeys]
  have hloop : AutoFixer.applyLoop p st.lines counts (sortDescBy fixLineKey vs) =
      (Counts.bumpN counts p vs.length, some (specApplyAll st.lines vs)) := by
    rw [applyLoop_spec p st.lines (sortDescBy fixLineKey vs) st.lines counts hchain
      (Nat.le_refl _) (fun _ _ _ _ => rfl), hlen, hspec]
  rw [apply_fixes_to_file_eq_of_read counts fs p vs st.lines _ _ hread hloop]
  unfold AutoFixer.finishFile
  dsimp only
  rw [if_pos hwrite]

/-- C4 witness: the amended theorem applied to a concrete well-formed fix
list given in the engine's **ascending** order (line 1 before line 4) — the
sort reorders the fixes downward, both decorators land at their pre-fix
positions, and both fixes are counted. -/
theorem C4_descending_fix_application_witness :
    AutoFixer.apply_fixes_to_file [] witnessFsC4wf "a.py"
        [witnessViolationC4a, witnessViolationC4b] =
      (Counts.touch (Counts.bumpN [] "a.py" 2) "a.py",
       fsWrite witnessFsC4wf "a.py"
         (specApplyAll witnessLinesC4wf [witnessViolationC4a, witnessViolationC4b])) :=
  C4_descending_fix_application [] witnessFsC4wf "a.py"
    { lines := witnessLinesC4wf } [witnessViolationC4a, witnessViolationC4b]
    rfl rfl rfl
    (by
      constructor
      · intro v hv
        rcases List.mem_cons.mp hv with h | h
        · rw [h]
          exact ⟨rfl, 1, rfl, by decide, by decide, by decide, by decide⟩
        rcases List.mem_cons.mp h with h2 | h2
        · rw [h2]
          exact ⟨rfl, 3, rfl, by decide, by decide, by decide, by decide⟩
        · cases h2
      · refine List.Pairwise.cons ?_ ?_
        · intro w hw
          rcases List.mem_cons.mp hw with h | h
          · rw [h]
            right
            decide
          · cases h
        · exact List.Pairwise.cons (fun b hb => absurd hb (List.not_mem_nil b))
            List.Pairwise.nil)

end Proboscis
